import Mathlib

/-
  Verification of the PyAutoload autoload engine against its specification.

  The definitions below are a shallow embedding of the Python sources in
  src/pyautoload/.  Python dicts are modelled as insertion-ordered
  association lists (Python dicts preserve insertion order), Python sets as
  insertion-ordered duplicate-free lists, file modification times as natural
  numbers, and operations that can raise KeyError as Except-valued
  functions.  Host-side effects (reading files, compiling and executing
  source, importlib.import_module) are outside the registry model; the
  embedding covers exactly the registry / sys.modules bookkeeping the
  claims are about.
-/

namespace PyAutoload

/-- One registry entry, mirroring the dict literal built by
`ModuleRegistry.register` (module_registry.py lines 37-45): keys
path, is_package, is_namespace_package, loaded, mtime, dependencies,
dependents. -/
structure ModuleEntry where
  path : Option String
  is_package : Bool
  is_namespace_package : Bool
  loaded : Bool
  mtime : Option Nat
  dependencies : List String
  dependents : List String
deriving Repr, DecidableEq

/-- The `_modules` dict of `ModuleRegistry`: an insertion-ordered
association list from module name to entry. -/
abbrev Registry := List (String × ModuleEntry)

/-- Dict lookup: first binding of the key, if any. -/
def dlookup : Registry → String → Option ModuleEntry
  | [], _ => none
  | (k, v) :: rest, n => if k = n then some v else dlookup rest n

/-- Dict assignment `d[k] = v`: replace the first binding of `k` in place,
or append a new binding at the end (Python dicts keep insertion order). -/
def dset : Registry → String → ModuleEntry → Registry
  | [], n, e => [(n, e)]
  | (k, v) :: rest, n, e =>
      if k = n then (n, e) :: rest else (k, v) :: dset rest n e

/-- Dict deletion `del d[k]`: drop the first binding of `k`. -/
def dremove : Registry → String → Registry
  | [], _ => []
  | (k, v) :: rest, n => if k = n then rest else (k, v) :: dremove rest n

/-- In-place mutation of the entry stored under `k` (a no-op when the key
is absent, matching the `if dep in self._modules` guards in the source). -/
def dupdate : Registry → String → (ModuleEntry → ModuleEntry) → Registry
  | [], _, _ => []
  | (k, v) :: rest, n, f =>
      if k = n then (k, f v) :: dupdate rest n f
      else (k, v) :: dupdate rest n f

/-- Python `set.add`: insert if not already present.  We model sets as
duplicate-free lists in insertion order. -/
def addToSet (x : String) (s : List String) : List String :=
  if x ∈ s then s else s ++ [x]

/-- Python `set.discard x`: remove the element if present. -/
def discardFromSet (x : String) (s : List String) : List String :=
  s.filter fun y => y ≠ x

/-- The entry freshly created by `ModuleRegistry.register`
(module_registry.py lines 37-45): given path and kind flags, with
loaded = False, mtime = None and empty dependency sets. -/
def freshEntry (p : Option String) (pk ns : Bool) : ModuleEntry :=
  ⟨p, pk, ns, false, none, [], []⟩

/-- `ModuleRegistry.register` (module_registry.py lines 26-45): store a
fresh entry under the name, replacing any prior entry for that name. -/
def register (r : Registry) (module_name : String) (filepath : Option String)
    (is_package : Bool := false) (is_namespace_package : Bool := false) : Registry :=
  dset r module_name (freshEntry filepath is_package is_namespace_package)

/-- `ModuleRegistry.contains` (module_registry.py lines 68-79). -/
def contains (r : Registry) (module_name : String) : Bool :=
  (dlookup r module_name).isSome

/-- `ModuleRegistry.unregister` (module_registry.py lines 47-66): when the
name is registered, discard it from the dependents of each of its
dependencies and from the dependencies of each of its dependents (guarded
by registration checks), then delete the entry; otherwise do nothing. -/
def unregister (r : Registry) (module_name : String) : Registry :=
  match dlookup r module_name with
  | none => r
  | some e =>
      let r1 := e.dependencies.foldl
        (fun acc dep => dupdate acc dep
          (fun en => { en with dependents := discardFromSet module_name en.dependents })) r
      let r2 := e.dependents.foldl
        (fun acc dep => dupdate acc dep
          (fun en => { en with dependencies := discardFromSet module_name en.dependencies })) r1
      dremove r2 module_name

/-- `ModuleRegistry.get_path` (module_registry.py lines 81-97); raises
KeyError on an unknown name. -/
def get_path (r : Registry) (module_name : String) : Except String (Option String) :=
  match dlookup r module_name with
  | none => .error ("Module " ++ module_name ++ " is not registered")
  | some e => .ok e.path

/-- `ModuleRegistry.is_package` (module_registry.py lines 99-115). -/
def is_package (r : Registry) (module_name : String) : Except String Bool :=
  match dlookup r module_name with
  | none => .error ("Module " ++ module_name ++ " is not registered")
  | some e => .ok e.is_package

/-- `ModuleRegistry.is_namespace_package` (module_registry.py lines
117-133). -/
def is_namespace_package (r : Registry) (module_name : String) : Except String Bool :=
  match dlookup r module_name with
  | none => .error ("Module " ++ module_name ++ " is not registered")
  | some e => .ok e.is_namespace_package

/-- `ModuleRegistry.is_loaded` (module_registry.py lines 135-151). -/
def is_loaded (r : Registry) (module_name : String) : Except String Bool :=
  match dlookup r module_name with
  | none => .error ("Module " ++ module_name ++ " is not registered")
  | some e => .ok e.loaded

/-- `ModuleRegistry.mark_loaded` (module_registry.py lines 153-168): set
loaded to True and record the mtime. -/
def mark_loaded (r : Registry) (module_name : String) (mtime : Nat) :
    Except String Registry :=
  match dlookup r module_name with
  | none => .error ("Module " ++ module_name ++ " is not registered")
  | some _ => .ok (dupdate r module_name
      (fun en => { en with loaded := true, mtime := some mtime }))

/-- `ModuleRegistry.mark_unloaded` (module_registry.py lines 170-183): set
loaded to False (mtime untouched). -/
def mark_unloaded (r : Registry) (module_name : String) : Except String Registry :=
  match dlookup r module_name with
  | none => .error ("Module " ++ module_name ++ " is not registered")
  | some _ => .ok (dupdate r module_name (fun en => { en with loaded := false }))

/-- `ModuleRegistry.get_mtime` (module_registry.py lines 185-201). -/
def get_mtime (r : Registry) (module_name : String) : Except String (Option Nat) :=
  match dlookup r module_name with
  | none => .error ("Module " ++ module_name ++ " is not registered")
  | some e => .ok e.mtime

/-- `ModuleRegistry.add_dependency` (module_registry.py lines 203-221):
after checking that both names are registered, add the dependency to the
dependencies set of the module and the module to the dependents set of the
dependency.  The checks precede every mutation, so a KeyError leaves the
registry unchanged. -/
def add_dependency (r : Registry) (module_name dependency : String) :
    Except String Registry :=
  match dlookup r module_name with
  | none => .error ("Module " ++ module_name ++ " is not registered")
  | some _ =>
    match dlookup r dependency with
    | none => .error ("Module " ++ dependency ++ " is not registered")
    | some _ =>
        let r1 := dupdate r module_name
          (fun en => { en with dependencies := addToSet dependency en.dependencies })
        .ok (dupdate r1 dependency
          (fun en => { en with dependents := addToSet module_name en.dependents }))

/-- `ModuleRegistry.get_dependencies` (module_registry.py lines 223-239). -/
def get_dependencies (r : Registry) (module_name : String) :
    Except String (List String) :=
  match dlookup r module_name with
  | none => .error ("Module " ++ module_name ++ " is not registered")
  | some e => .ok e.dependencies

/-- `ModuleRegistry.get_dependents` (module_registry.py lines 241-257). -/
def get_dependents (r : Registry) (module_name : String) :
    Except String (List String) :=
  match dlookup r module_name with
  | none => .error ("Module " ++ module_name ++ " is not registered")
  | some e => .ok e.dependents

/-- `ModuleRegistry.get_all_modules` (module_registry.py lines 259-267):
the list of registered names in insertion order. -/
def get_all_modules (r : Registry) : List String :=
  r.map Prod.fst

/-! Python string primitives, modelled structurally over the character
list so that every definition evaluates by kernel reduction. -/

/-- Python `s.startswith(pre)`. -/
def py_startswith (s pre : String) : Bool :=
  pre.toList.isPrefixOf s.toList

/-- Python `s.endswith(suf)`. -/
def py_endswith (s suf : String) : Bool :=
  suf.toList.reverse.isPrefixOf s.toList.reverse

/-- Helper for `py_split`: cut the character list at every separator. -/
def py_split_go (c : Char) : List Char → List Char → List (List Char)
  | [], acc => [acc.reverse]
  | x :: xs, acc =>
      if x = c then acc.reverse :: py_split_go c xs []
      else py_split_go c xs (x :: acc)

/-- Python `s.split(c)` for a single-character separator: the list of
chunks between separators (never empty; the empty string splits to a
single empty chunk). -/
def py_split (c : Char) (s : String) : List String :=
  (py_split_go c s.toList []).map String.mk

/-- Python `sep.join(parts)`. -/
def py_join (sep : String) : List String → String
  | [] => ""
  | [x] => x
  | x :: y :: rest => x ++ sep ++ py_join sep (y :: rest)

/-- Python `s[:-n]` on a string of length at least n. -/
def py_dropRight (s : String) (n : Nat) : String :=
  String.mk (s.toList.take (s.toList.length - n))

/-- A public mutating operation of `ModuleRegistry`, used to state
invariants over operation sequences. -/
inductive RegOp where
  | register (module_name : String) (filepath : Option String)
      (is_package is_namespace_package : Bool)
  | unregister (module_name : String)
  | add_dependency (module_name dependency : String)
  | mark_loaded (module_name : String) (mtime : Nat)
  | mark_unloaded (module_name : String)

/-- Apply one public operation to the registry.  The Except-valued
operations check registration before any mutation, so the KeyError branch
leaves the Python registry unchanged; this function returns that unchanged
state in the error case. -/
def apply_operation (r : Registry) : RegOp → Registry
  | .register n p pk ns => register r n p pk ns
  | .unregister n => unregister r n
  | .add_dependency n d =>
      match add_dependency r n d with
      | .ok r2 => r2
      | .error _ => r
  | .mark_loaded n t =>
      match mark_loaded r n t with
      | .ok r2 => r2
      | .error _ => r
  | .mark_unloaded n =>
      match mark_unloaded r n with
      | .ok r2 => r2
      | .error _ => r

/-! The reload controller (autoloader.py).  `_get_dependent_modules_in_order`
is a recursive DFS over the dependents relation with a visited set; we embed
it with an explicit fuel argument (the Python recursion terminates because
the visited set grows inside the finite set of registered names; the lemmas
below prove the fuel branch unreachable for fuel larger than the number of
registered names). -/

/-- The dependents adjacency used by the DFS, as a total function.  The
Python code calls `registry.get_dependents` which raises on an unknown
name; `visitE` below is the raising version, and for registered names
under a dependents-closed registry the two agree. -/
def gdep (r : Registry) (n : String) : List String :=
  match dlookup r n with
  | some e => e.dependents
  | none => []

mutual
/-- The inner `visit` closure of `AutoLoader._get_dependent_modules_in_order`
(autoloader.py lines 205-211): if the name is visited return; otherwise add
it to the visited set, visit each of its dependents, then append the name to
the output list. -/
def visit (r : Registry) : Nat → String → List String → List String →
    List String × List String
  | fuel, n, vis, out =>
    if n ∈ vis then (vis, out)
    else
      match fuel with
      | 0 => (vis, out)
      | f + 1 =>
          let p := visitList r f (gdep r n) (vis ++ [n]) out
          (p.1, p.2 ++ [n])
termination_by fuel n vis out => (fuel, 0)

/-- The `for dependent in self.registry.get_dependents(name)` loop of the
DFS, visiting children left to right. -/
def visitList (r : Registry) : Nat → List String → List String → List String →
    List String × List String
  | _, [], vis, out => (vis, out)
  | fuel, c :: cs, vis, out =>
      let p := visit r fuel c vis out
      visitList r fuel cs p.1 p.2
termination_by fuel l vis out => (fuel, l.length + 1)
end

mutual
/-- Raising version of `visit`: `registry.get_dependents` raises KeyError
on an unregistered name and the exception propagates out of
`_get_dependent_modules_in_order`. -/
def visitE (r : Registry) : Nat → String → List String → List String →
    Except String (List String × List String)
  | fuel, n, vis, out =>
    if n ∈ vis then .ok (vis, out)
    else
      match fuel with
      | 0 => .ok (vis, out)
      | f + 1 =>
          match get_dependents r n with
          | .error msg => .error msg
          | .ok deps =>
              match visitListE r f deps (vis ++ [n]) out with
              | .error msg => .error msg
              | .ok p => .ok (p.1, p.2 ++ [n])
termination_by fuel n vis out => (fuel, 0)

/-- Raising version of `visitList`. -/
def visitListE (r : Registry) : Nat → List String → List String → List String →
    Except String (List String × List String)
  | _, [], vis, out => .ok (vis, out)
  | fuel, c :: cs, vis, out =>
      match visitE r fuel c vis out with
      | .error msg => .error msg
      | .ok p => visitListE r fuel cs p.1 p.2
termination_by fuel l vis out => (fuel, l.length + 1)
end

/-- `AutoLoader._get_dependent_modules_in_order` (autoloader.py lines
192-216): DFS from the module over dependents, collecting a post-order
list.  Fuel `r.length + 1` exceeds the number of registered names, which
the lemmas below show makes the fuel-exhaustion branch unreachable. -/
def get_dependent_modules_in_order (r : Registry) (module_name : String) :
    Except String (List String) :=
  match visitE r (r.length + 1) module_name [] [] with
  | .error msg => .error msg
  | .ok p => .ok p.2

/-- Reachability along the dependents relation: the reflexive-transitive
closure of `d ∈ gdep r m`. -/
inductive ReachDep (r : Registry) : String → String → Prop
  | refl (n : String) : ReachDep r n n
  | step {n m d : String} : ReachDep r n m → d ∈ gdep r m → ReachDep r n d

/-- Executable check that every recorded dependent of a registered name is
itself registered (the part of `ClosedReg` the DFS needs). -/
def depClosedB (r : Registry) : Bool :=
  r.all fun p => p.2.dependents.all fun d => contains r d

/-- Every recorded dependent of a registered name is itself registered:
the property of reachable registries that makes `get_dependents` total
along the DFS. -/
def DepClosed (r : Registry) : Prop :=
  ∀ n e, dlookup r n = some e → ∀ d ∈ e.dependents, contains r d = true

/-- The dependents relation has no cycle: no edge closes a path back to
its source. -/
def AcyclicDep (r : Registry) : Prop :=
  ∀ x d, d ∈ gdep r x → ¬ ReachDep r d x

/-- The number of registered names not yet visited; the decreasing measure
of the Python DFS recursion, used to show the fuel of `visit` is never
exhausted. -/
def unvis_count (r : Registry) (vis : List String) : Nat :=
  (((get_all_modules r).dedup).filter (fun x => x ∉ vis)).length

/-- The host runtime state the reload controller manipulates: the registry
plus the names present in the host module cache (`sys.modules`). -/
structure HostState where
  registry : Registry
  sys_modules : List String
deriving Repr, DecidableEq

/-- The unload loop of `AutoLoader.reload_module` (autoloader.py lines
177-183): `for mod_name in reversed(modules_to_reload): if mod_name in
sys.modules: del sys.modules[mod_name]; registry.mark_unloaded(mod_name)`.
A KeyError from `mark_unloaded` propagates. -/
def unload_loop : HostState → List String → Except String HostState
  | st, [] => .ok st
  | st, m :: rest =>
      if m ∈ st.sys_modules then
        match mark_unloaded st.registry m with
        | .error msg => .error msg
        | .ok r2 =>
            unload_loop ⟨r2, st.sys_modules.filter (fun x => x ≠ m)⟩ rest
      else unload_loop st rest

/-- `AutoLoader.reload_module` (autoloader.py lines 164-190) up to and
including the unload loop: return early when the name is unregistered;
otherwise compute the post-order dependents list and unload each listed
module present in the host cache, in reverse list order.  The function
returns the state at that point together with the order list; the final
Python loop then calls the host-side `importlib.import_module` on each
name of the list in order, which executes arbitrary module code and is
outside the registry model. -/
def reload_module_unload (st : HostState) (module_name : String) :
    Except String (HostState × List String) :=
  if contains st.registry module_name = false then .ok (st, [])
  else
    match get_dependent_modules_in_order st.registry module_name with
    | .error msg => .error msg
    | .ok order =>
        match unload_loop st order.reverse with
        | .error msg => .error msg
        | .ok st2 => .ok (st2, order)

/-- The registry effect of `PyAutoloadLoader.exec_module` (import_hooks.py
lines 184-200).  The method reads the source bytes, compiles them and
executes them in the module namespace (host-side effects outside the
registry), and its one and only registry interaction is the final
`self.registry.mark_loaded(self.fullname, os.path.getmtime(self.filepath))`.
In particular it never calls `calculate_dependencies` or
`registry.add_dependency`. -/
def exec_module_registry (r : Registry) (fullname : String) (mtime : Nat) :
    Except String Registry :=
  mark_loaded r fullname mtime

/-- `calculate_dependencies` (import_parser.py lines 84-125): for each
extracted import, record it when registered; otherwise record it when some
registered name extends it with a dot, and additionally record every
registered proper dotted prefix of it; finally always record the parent
package of the module when registered. -/
def calculate_dependencies (module_name : String) (imported_modules : List String)
    (r : Registry) : List String :=
  let deps1 := imported_modules.foldl (fun acc imported =>
    if contains r imported then addToSet imported acc
    else
      let acc1 :=
        if (get_all_modules r).any
            (fun registered => py_startswith registered (imported ++ ".")) then
          addToSet imported acc
        else acc
      let parts := py_split '.' imported
      (List.range' 1 (parts.length - 1)).foldl (fun acc2 i =>
        let pre := py_join "." (parts.take i)
        if contains r pre then addToSet pre acc2 else acc2) acc1) []
  let parts := py_split '.' module_name
  if parts.length > 1 then
    let parent := py_join "." parts.dropLast
    if contains r parent then addToSet parent deps1 else deps1
  else deps1

/-! The resolution hook (import_hooks.py, `PyAutoloadFinder`).  ModuleSpec
objects are modelled by the fields the code sets: name, loader (None or a
`PyAutoloadLoader` carrying fullname and filepath), origin, and
submodule_search_locations.  The finder is modelled by the fields
`find_spec` consults: base_paths, the registry, and the `os.path.isdir`
oracle (the namespace and inflector fields are never read by the hook). -/

/-- A reference to a `PyAutoloadLoader(fullname, filepath, registry)`. -/
structure PyLoaderRef where
  fullname : String
  filepath : Option String
deriving Repr, DecidableEq

/-- The fields of `importlib.machinery.ModuleSpec` set by the code.  A
ModuleSpec created without `is_package` has submodule_search_locations
None. -/
structure PyModuleSpec where
  name : String
  loader : Option PyLoaderRef
  origin : Option String
  submodule_search_locations : Option (List (Option String))
deriving Repr, DecidableEq

/-- The state of a `PyAutoloadFinder`. -/
structure PyAutoloadFinder where
  base_paths : List String
  registry : Registry
  isdir : String → Bool

/-- `os.path.dirname` for slash-separated paths with at least two
segments (everything before the last slash); for a slash-free name it
returns the empty string, as in Python. -/
def dirname (p : String) : String :=
  let parts := py_split '/' p
  if parts.length ≤ 1 then "" else py_join "/" parts.dropLast

/-- `PyAutoloadFinder._find_parent_module` (import_hooks.py lines 95-111):
for i in range(1, number of segments), join the first i segments and
return that join as soon as some registered name starts with it followed
by a dot; otherwise None. -/
def find_parent_module (r : Registry) (fullname : String) : Option String :=
  let parts := py_split '.' fullname
  (List.range' 1 (parts.length - 1)).findSome? fun i =>
    let parent := py_join "." (parts.take i)
    if (get_all_modules r).any
        (fun registered => py_startswith registered (parent ++ ".")) then
      some parent
    else none

/-- `PyAutoloadFinder._create_namespace_package_spec` (import_hooks.py
lines 113-140): a spec with no loader; for a single-segment name the
search locations are the base-path subdirectories of that basename that
exist on disk, and `[None]` when that list is empty (which is always the
case for dotted names). -/
def create_namespace_package_spec (f : PyAutoloadFinder) (fullname : String) :
    PyModuleSpec :=
  let parts := py_split '.' fullname
  let paths :=
    if parts.length = 1 then
      (f.base_paths.filter (fun bp => f.isdir (bp ++ "/" ++ parts.headD ""))).map
        (fun bp => bp ++ "/" ++ parts.headD "")
    else []
  { name := fullname, loader := none, origin := none,
    submodule_search_locations :=
      if paths = [] then some [none] else some (paths.map some) }

/-- `PyAutoloadFinder.find_spec` (import_hooks.py lines 43-93).  For an
unregistered name, consult `_find_parent_module`; a truthy (non-empty)
result yields a namespace package spec for the queried name, otherwise the
None sentinel.  For a registered name, build a spec with a
`PyAutoloadLoader`; when the entry is a package the submodule search
locations are the dirname of its path (`os.path.dirname(None)` raises
TypeError for path-less entries).  The `except KeyError` around the
registry queries returns the sentinel. -/
def find_spec (f : PyAutoloadFinder) (fullname : String) :
    Except String (Option PyModuleSpec) :=
  if contains f.registry fullname = false then
    match find_parent_module f.registry fullname with
    | some parent =>
        if parent = "" then .ok none
        else .ok (some (create_namespace_package_spec f fullname))
    | none => .ok none
  else
    match get_path f.registry fullname, is_package f.registry fullname with
    | .ok filepath, .ok is_pkg =>
        let loader : PyLoaderRef := { fullname := fullname, filepath := filepath }
        if is_pkg then
          match filepath with
          | some fp =>
              .ok (some
                { name := fullname
                  loader := some loader
                  origin := filepath
                  submodule_search_locations := some [some (dirname fp)] })
          | none => .error "TypeError: dirname of None"
        else
          .ok (some
            { name := fullname
              loader := some loader
              origin := filepath
              submodule_search_locations := none })
    | _, _ => .ok none

/-! The file scanner (file_scanner.py).  The file system is modelled as a
tree of named entries; `os.listdir` returns the children in list order. -/

/-- A file-system entry: a file or a directory with children. -/
inductive FSEntry where
  | file : String → FSEntry
  | dir : String → List FSEntry → FSEntry

/-- The basename of an entry. -/
def FSEntry.name : FSEntry → String
  | .file n => n
  | .dir n _ => n

/-- The listing of an entry (empty for files). -/
def FSEntry.children : FSEntry → List FSEntry
  | .file _ => []
  | .dir _ cs => cs

/-- `os.path.basename`: the last slash-separated segment. -/
def basename (path : String) : String :=
  (py_split '/' path).getLastD path

/-- The Python substring test `pattern in path`: some suffix of the path
starts with the pattern. -/
def str_contains (path pattern : String) : Bool :=
  let ps := pattern.toList
  let cs := path.toList
  (List.range (cs.length + 1)).any fun i => ps.isPrefixOf (cs.drop i)

/-- `FileScanner._should_ignore` (file_scanner.py lines 211-232): ignore
basenames starting with a dot or double underscore or equal to setup.py,
and any path containing a configured pattern as a substring. -/
def should_ignore (path : String) (ignored_patterns : List String) : Bool :=
  let bn := basename path
  py_startswith bn "." || py_startswith bn "__" || bn == "setup.py" ||
    ignored_patterns.any (fun pattern => str_contains path pattern)

/-- `FileScanner._is_valid_namespace_package` (file_scanner.py lines
234-267): scan the listing; skip ignored items; return True on the first
item whose name ends in .py, or on the first subdirectory (ignored or not
at the inner level) having a direct child whose name ends in .py or equals
`__init__.py`; otherwise False. -/
def is_valid_namespace_package (dirPath : String) (children : List FSEntry)
    (ignored_patterns : List String) : Bool :=
  children.any fun item =>
    !(should_ignore (dirPath ++ "/" ++ item.name) ignored_patterns) &&
    (py_endswith item.name ".py" ||
      match item with
      | .dir _ subs =>
          subs.any (fun sub => py_endswith sub.name ".py" || sub.name == "__init__.py")
      | .file _ => false)

mutual
/-- The body of the `for item in os.listdir(directory)` loop of
`FileScanner._scan_package_directory` (file_scanner.py lines 99-130) for a
single item: skip ignored items; register a subdirectory with an
initializer as a package entry (path the initializer) and recurse;
register a subdirectory without one as a namespace entry (path the
directory) and recurse when `_is_valid_namespace_package` holds, and skip
it entirely otherwise; register a non-initializer .py file as a module
entry.  The recursive call in the source is
`self._scan_package_directory(path, package_name)`, whose entry re-check
`_should_ignore(path)` is False on this branch, so it is the children loop
`scan_items`. -/
def scan_item (item : FSEntry) (dirPath ns : String)
    (ignored_patterns : List String) (reg : Registry) : Registry :=
  let path := dirPath ++ "/" ++ item.name
  if should_ignore path ignored_patterns then reg
  else
    match item with
    | .dir iname children =>
        let package_name := ns ++ "." ++ iname
        if children.any (fun c => c.name == "__init__.py") then
          scan_items children path package_name ignored_patterns
            (register reg package_name (some (path ++ "/__init__.py")) true false)
        else
          if is_valid_namespace_package path children ignored_patterns then
            scan_items children path package_name ignored_patterns
              (register reg package_name (some path) true true)
          else reg
    | .file iname =>
        if py_endswith iname ".py" && iname ≠ "__init__.py" then
          register reg (ns ++ "." ++ py_dropRight iname 3) (some path) false false
        else reg
termination_by (sizeOf item, 1)

/-- The `for item in os.listdir(directory)` loop of
`FileScanner._scan_package_directory`, folding `scan_item` over the
listing in order. -/
def scan_items (items : List FSEntry) (dirPath ns : String)
    (ignored_patterns : List String) (reg : Registry) : Registry :=
  match items with
  | [] => reg
  | item :: rest =>
      scan_items rest dirPath ns ignored_patterns
        (scan_item item dirPath ns ignored_patterns reg)
termination_by (sizeOf items, 2)
end

/-- `FileScanner._scan_package_directory` (file_scanner.py lines 87-133):
return unchanged when the directory itself is ignored, otherwise process
each listed child. -/
def scan_package_directory (e : FSEntry) (dirPath ns : String)
    (ignored_patterns : List String) (reg : Registry) : Registry :=
  if should_ignore dirPath ignored_patterns then reg
  else
    match e with
    | .file _ => reg
    | .dir _ children => scan_items children dirPath ns ignored_patterns reg

mutual
/-- Modelled from the spec: a directory "recursively contains at least one
recognized source file" when some non-ignored entry of its listing either
is a file whose name ends in .py, or is a directory recursively containing
one (spec section 4.4).  This definition follows the words of the spec and
exists to be compared with `is_valid_namespace_package` from the source. -/
def spec_recognized_in (item : FSEntry) (dirPath : String)
    (ignored_patterns : List String) : Bool :=
  let path := dirPath ++ "/" ++ item.name
  if should_ignore path ignored_patterns then false
  else
    match item with
    | .file n => py_endswith n ".py"
    | .dir _ children => spec_recognized_list children path ignored_patterns
termination_by (sizeOf item, 1)

/-- Modelled from the spec: the listing-level disjunction for
`spec_recognized_in`. -/
def spec_recognized_list (items : List FSEntry) (dirPath : String)
    (ignored_patterns : List String) : Bool :=
  match items with
  | [] => false
  | item :: rest =>
      spec_recognized_in item dirPath ignored_patterns ||
        spec_recognized_list rest dirPath ignored_patterns
termination_by (sizeOf items, 2)
end

/-! Basic dictionary lemmas. -/

theorem dlookup_dset_self (r : Registry) (n : String) (e : ModuleEntry) :
    dlookup (dset r n e) n = some e := by
  induction r with
  | nil => simp [dset, dlookup]
  | cons kv rest ih =>
      by_cases h : kv.1 = n
      · simp [dset, h, dlookup]
      · simpa [dset, h, dlookup] using ih

theorem dlookup_dset_ne (r : Registry) (n m : String) (e : ModuleEntry)
    (h : m ≠ n) : dlookup (dset r n e) m = dlookup r m := by
  have hnm : ¬ n = m := fun hh => h hh.symm
  induction r with
  | nil => simp [dset, dlookup, hnm]
  | cons kv rest ih =>
      obtain ⟨k, v⟩ := kv
      by_cases hk : k = n
      · have hkm : ¬ k = m := by rw [hk]; exact hnm
        simp [dset, hk, dlookup, hnm, hkm]
      · by_cases hkm : k = m
        · simp [dset, hk, dlookup, hkm, h]
        · simp [dset, hk, dlookup, hkm, ih]

theorem dlookup_dupdate (r : Registry) (n m : String) (f : ModuleEntry → ModuleEntry) :
    dlookup (dupdate r n f) m =
      if m = n then (dlookup r n).map f else dlookup r m := by
  induction r with
  | nil => by_cases hm : m = n <;> simp [dupdate, dlookup, hm]
  | cons kv rest ih =>
      obtain ⟨k, v⟩ := kv
      by_cases hk : k = n
      · by_cases hm : m = n
        · have hkm : k = m := by rw [hk, hm]
          simp [dupdate, dlookup, hk, hm, hkm]
        · have hnm : ¬ n = m := fun hh => hm hh.symm
          simp [dupdate, dlookup, hk, hm, hnm, ih]
      · by_cases hkm : k = m
        · have hm : ¬ m = n := fun hh => hk (by rw [hkm, hh])
          simp [dupdate, dlookup, hk, hkm, hm]
        · simp [dupdate, dlookup, hk, hkm, ih]

theorem dlookup_dremove_ne (r : Registry) (n m : String) (h : m ≠ n) :
    dlookup (dremove r n) m = dlookup r m := by
  have hnm : ¬ n = m := fun hh => h hh.symm
  induction r with
  | nil => simp [dremove]
  | cons kv rest ih =>
      obtain ⟨k, v⟩ := kv
      by_cases hk : k = n
      · simp [dremove, hk, dlookup, hnm]
      · by_cases hkm : k = m
        · simp [dremove, hk, hkm, dlookup, h]
        · simp [dremove, hk, hkm, dlookup, ih]

theorem dlookup_mem (r : Registry) (n : String) (e : ModuleEntry)
    (h : dlookup r n = some e) : (n, e) ∈ r := by
  induction r with
  | nil => simp [dlookup] at h
  | cons kv rest ih =>
      obtain ⟨k, v⟩ := kv
      by_cases hk : k = n
      · simp only [dlookup, if_pos hk] at h
        injection h with h1
        subst h1
        subst hk
        exact List.mem_cons_self _ _
      · simp only [dlookup, if_neg hk] at h
        exact List.mem_cons_of_mem _ (ih h)

theorem mem_dlookup_of_nodup (r : Registry) (n : String) (e : ModuleEntry)
    (hnd : (get_all_modules r).Nodup) (h : (n, e) ∈ r) : dlookup r n = some e := by
  induction r with
  | nil => simp at h
  | cons kv rest ih =>
      simp only [get_all_modules, List.map_cons, List.nodup_cons] at hnd
      rcases List.mem_cons.mp h with h1 | h2
      · subst h1; simp [dlookup]
      · have hne : kv.1 ≠ n := by
          intro hk
          exact hnd.1 (hk ▸ (List.mem_map.mpr ⟨(n, e), h2, rfl⟩))
        simp only [dlookup, if_neg hne]
        exact ih hnd.2 h2

theorem get_all_modules_dupdate (r : Registry) (n : String) (f : ModuleEntry → ModuleEntry) :
    get_all_modules (dupdate r n f) = get_all_modules r := by
  induction r with
  | nil => rfl
  | cons kv rest ih =>
      by_cases hk : kv.1 = n <;>
        simp_all [dupdate, get_all_modules]

theorem get_all_modules_dset (r : Registry) (n : String) (e : ModuleEntry) :
    get_all_modules (dset r n e) =
      if contains r n then get_all_modules r else get_all_modules r ++ [n] := by
  induction r with
  | nil => simp [dset, get_all_modules, contains, dlookup]
  | cons kv rest ih =>
      by_cases hk : kv.1 = n
      · simp [dset, hk, get_all_modules, contains, dlookup]
      · simp only [dset, if_neg hk, get_all_modules, List.map_cons, contains, dlookup,
          if_neg hk] at *
        by_cases hc : (dlookup rest n).isSome <;>
          simp_all [contains, get_all_modules]

theorem contains_dlookup (r : Registry) (n : String) (h : contains r n = true) :
    ∃ e, dlookup r n = some e := by
  unfold contains at h
  cases he : dlookup r n with
  | none => rw [he] at h; simp at h
  | some e => exact ⟨e, rfl⟩

theorem get_all_modules_dremove_sub (r : Registry) (n : String) :
    ∀ m ∈ get_all_modules (dremove r n), m ∈ get_all_modules r := by
  induction r with
  | nil => simp [dremove]
  | cons kv rest ih =>
      by_cases hk : kv.1 = n
      · intro m hm
        simp only [dremove, if_pos hk] at hm
        exact List.mem_cons_of_mem _ hm
      · intro m hm
        simp only [dremove, if_neg hk, get_all_modules, List.map_cons] at hm ⊢
        rcases List.mem_cons.mp hm with h1 | h2
        · exact List.mem_cons.mpr (Or.inl h1)
        · exact List.mem_cons.mpr (Or.inr (ih m h2))

theorem nodup_keys_dremove (r : Registry) (n : String)
    (h : (get_all_modules r).Nodup) : (get_all_modules (dremove r n)).Nodup := by
  induction r with
  | nil => simpa [dremove] using h
  | cons kv rest ih =>
      simp only [get_all_modules, List.map_cons, List.nodup_cons] at h
      by_cases hk : kv.1 = n
      · simpa [dremove, hk, get_all_modules] using h.2
      · simp only [dremove, if_neg hk, get_all_modules, List.map_cons, List.nodup_cons]
        refine ⟨fun hm => ?_, ih h.2⟩
        exact h.1 (get_all_modules_dremove_sub rest n kv.1 hm)

theorem dlookup_dremove_self (r : Registry) (n : String)
    (hnd : (get_all_modules r).Nodup) : dlookup (dremove r n) n = none := by
  induction r with
  | nil => simp [dremove, dlookup]
  | cons kv rest ih =>
      simp only [get_all_modules, List.map_cons, List.nodup_cons] at hnd
      by_cases hk : kv.1 = n
      · simp only [dremove, if_pos hk]
        cases he : dlookup rest n with
        | none => rfl
        | some e =>
            exact absurd (hk ▸ (List.mem_map.mpr ⟨(n, e), dlookup_mem rest n e he, rfl⟩))
              hnd.1
      · simp only [dremove, if_neg hk, dlookup, if_neg hk]
        exact ih hnd.2

theorem dlookup_foldl_dupdate (L : List String) (f : ModuleEntry → ModuleEntry)
    (hf : ∀ e, f (f e) = f e) :
    ∀ (r : Registry) (k : String),
    dlookup (L.foldl (fun acc d => dupdate acc d f) r) k =
      if k ∈ L then (dlookup r k).map f else dlookup r k := by
  induction L with
  | nil => intro r k; simp
  | cons d rest ih =>
      intro r k
      simp only [List.foldl_cons]
      rw [ih (dupdate r d f) k]
      by_cases hkd : k = d
      · subst hkd
        by_cases hkr : k ∈ rest
        · simp only [if_pos hkr, dlookup_dupdate, if_pos rfl,
            List.mem_cons, true_or, if_pos]
          cases dlookup r k with
          | none => rfl
          | some e => simp [hf]
        · simp [hkr, dlookup_dupdate]
      · by_cases hkr : k ∈ rest
        · simp [hkr, hkd, dlookup_dupdate]
        · simp [hkr, hkd, dlookup_dupdate]

/-! Registry invariants (spec section 8, universal invariant 1 and the
data-model invariants): keys are unique, every recorded edge endpoint is a
registered name, and the two edge directions mirror each other. -/

/-- Keys of the dict are unique (a property of every Python dict). -/
def NodupKeys (r : Registry) : Prop := (get_all_modules r).Nodup

/-- Every name appearing in a dependencies or dependents set is itself
registered. -/
def ClosedReg (r : Registry) : Prop :=
  ∀ n e, dlookup r n = some e →
    (∀ d ∈ e.dependencies, contains r d = true) ∧
    (∀ d ∈ e.dependents, contains r d = true)

/-- Spec invariant 1: for all registered names n and d, d is among the
dependencies of n exactly when n is among the dependents of d. -/
def Mirrored (r : Registry) : Prop :=
  ∀ n en d ed, dlookup r n = some en → dlookup r d = some ed →
    (d ∈ en.dependencies ↔ n ∈ ed.dependents)

/-- The combined registry invariant. -/
def WfRegistry (r : Registry) : Prop := NodupKeys r ∧ ClosedReg r ∧ Mirrored r

/-- Executable check implying `WfRegistry`, used to discharge hypotheses on
concrete registries. -/
def wfB (r : Registry) : Bool :=
  (get_all_modules r).Nodup &&
  r.all fun p =>
    (p.2.dependencies.all fun d =>
      match dlookup r d with
      | some ed => decide (p.1 ∈ ed.dependents)
      | none => false) &&
    (p.2.dependents.all fun d =>
      match dlookup r d with
      | some ed => decide (p.1 ∈ ed.dependencies)
      | none => false)

theorem wfB_correct (r : Registry) (h : wfB r = true) : WfRegistry r := by
  unfold wfB at h
  rw [Bool.and_eq_true] at h
  obtain ⟨hnd, hall⟩ := h
  rw [List.all_eq_true] at hall
  have hnd' : (get_all_modules r).Nodup := by simpa using hnd
  refine ⟨hnd', ?_, ?_⟩
  · intro n e he
    have hp := hall (n, e) (dlookup_mem r n e he)
    rw [Bool.and_eq_true, List.all_eq_true, List.all_eq_true] at hp
    constructor
    · intro d hd
      have := hp.1 d hd
      cases hdl : dlookup r d with
      | none => rw [hdl] at this; simp at this
      | some ed => simp [contains, hdl]
    · intro d hd
      have := hp.2 d hd
      cases hdl : dlookup r d with
      | none => rw [hdl] at this; simp at this
      | some ed => simp [contains, hdl]
  · intro n en d ed hn hd
    constructor
    · intro hmem
      have hp := hall (n, en) (dlookup_mem r n en hn)
      rw [Bool.and_eq_true, List.all_eq_true, List.all_eq_true] at hp
      have := hp.1 d hmem
      rw [hd] at this
      simpa using this
    · intro hmem
      have hp := hall (d, ed) (dlookup_mem r d ed hd)
      rw [Bool.and_eq_true, List.all_eq_true, List.all_eq_true] at hp
      have := hp.2 n hmem
      rw [hn] at this
      simpa using this

/-! Helper lemmas about sets, keys and containment. -/

theorem mem_addToSet (x y : String) (s : List String) :
    x ∈ addToSet y s ↔ x = y ∨ x ∈ s := by
  unfold addToSet
  by_cases h : y ∈ s
  · simp only [if_pos h]
    constructor
    · exact Or.inr
    · rintro (rfl | hx)
      · exact h
      · exact hx
  · simp [if_neg h, List.mem_append, or_comm]

theorem mem_discardFromSet (x t : String) (s : List String) :
    x ∈ discardFromSet t s ↔ x ∈ s ∧ x ≠ t := by
  simp [discardFromSet]

theorem discardFromSet_idem (t : String) (s : List String) :
    discardFromSet t (discardFromSet t s) = discardFromSet t s := by
  induction s with
  | nil => rfl
  | cons a rest ih =>
      by_cases h : a = t
      · simpa [discardFromSet, h] using ih
      · simpa [discardFromSet, h] using ih

theorem contains_iff_mem_keys (r : Registry) (m : String) :
    contains r m = true ↔ m ∈ get_all_modules r := by
  induction r with
  | nil => simp [contains, dlookup, get_all_modules]
  | cons kv rest ih =>
      obtain ⟨k, v⟩ := kv
      by_cases hk : k = m
      · simp [contains, dlookup, hk, get_all_modules]
      · simp only [contains, dlookup, if_neg hk, get_all_modules, List.map_cons,
          List.mem_cons]
        rw [← get_all_modules, ← contains]
        rw [ih]
        constructor
        · exact Or.inr
        · rintro (h1 | h2)
          · exact absurd h1.symm hk
          · exact h2

theorem keys_foldl_dupdate (L : List String) (f : ModuleEntry → ModuleEntry) :
    ∀ r : Registry,
      get_all_modules (L.foldl (fun acc d => dupdate acc d f) r) = get_all_modules r := by
  induction L with
  | nil => intro r; rfl
  | cons d rest ih =>
      intro r
      simp only [List.foldl_cons]
      rw [ih (dupdate r d f), get_all_modules_dupdate]

theorem contains_dupdate (r : Registry) (n m : String) (f : ModuleEntry → ModuleEntry) :
    contains (dupdate r n f) m = contains r m := by
  unfold contains
  rw [dlookup_dupdate]
  by_cases hm : m = n
  · subst hm
    cases dlookup r m <;> simp
  · simp [hm]

theorem contains_dset (r : Registry) (n m : String) (e : ModuleEntry) :
    contains (dset r n e) m = if m = n then true else contains r m := by
  by_cases hm : m = n
  · subst hm; simp [contains, dlookup_dset_self]
  · simp [contains, dlookup_dset_ne r n m e hm, hm]

theorem contains_dremove_ne (r : Registry) (n m : String) (h : m ≠ n) :
    contains (dremove r n) m = contains r m := by
  simp [contains, dlookup_dremove_ne r n m h]

/-! Preservation of the registry invariant by each public operation. -/

theorem wf_dupdate_edges (r : Registry) (n : String) (g : ModuleEntry → ModuleEntry)
    (hdeps : ∀ e, (g e).dependencies = e.dependencies)
    (hdept : ∀ e, (g e).dependents = e.dependents)
    (h : WfRegistry r) : WfRegistry (dupdate r n g) := by
  obtain ⟨hnd, hcl, hmr⟩ := h
  refine ⟨?_, ?_, ?_⟩
  · unfold NodupKeys
    rw [get_all_modules_dupdate]
    exact hnd
  · intro m e hm
    rw [dlookup_dupdate] at hm
    by_cases hmn : m = n
    · rw [if_pos hmn] at hm
      cases he : dlookup r n with
      | none => rw [he] at hm; simp at hm
      | some e0 =>
          rw [he] at hm
          simp only [Option.map_some'] at hm
          injection hm with hm
          subst hm
          have := hcl n e0 he
          rw [hdeps, hdept]
          exact ⟨fun d hd => by rw [contains_dupdate]; exact this.1 d hd,
                 fun d hd => by rw [contains_dupdate]; exact this.2 d hd⟩
    · rw [if_neg hmn] at hm
      have := hcl m e hm
      exact ⟨fun d hd => by rw [contains_dupdate]; exact this.1 d hd,
             fun d hd => by rw [contains_dupdate]; exact this.2 d hd⟩
  · intro x ex y ey hx hy
    rw [dlookup_dupdate] at hx hy
    by_cases hxn : x = n <;> by_cases hyn : y = n
    · rw [if_pos hxn] at hx
      rw [if_pos hyn] at hy
      cases he : dlookup r n with
      | none => rw [he] at hx; simp at hx
      | some e0 =>
          rw [he] at hx hy
          simp only [Option.map_some'] at hx hy
          injection hx with hx
          injection hy with hy
          subst hx; subst hy
          rw [hdeps, hdept]
          exact hmr x e0 y e0 (hxn ▸ he) (hyn ▸ he)
    · rw [if_pos hxn] at hx
      rw [if_neg hyn] at hy
      cases he : dlookup r n with
      | none => rw [he] at hx; simp at hx
      | some e0 =>
          rw [he] at hx
          simp only [Option.map_some'] at hx
          injection hx with hx
          subst hx
          rw [hdeps]
          exact hmr x e0 y ey (hxn ▸ he) hy
    · rw [if_neg hxn] at hx
      rw [if_pos hyn] at hy
      cases he : dlookup r n with
      | none => rw [he] at hy; simp at hy
      | some e0 =>
          rw [he] at hy
          simp only [Option.map_some'] at hy
          injection hy with hy
          subst hy
          rw [hdept]
          exact hmr x ex y e0 hx (hyn ▸ he)
    · rw [if_neg hxn] at hx
      rw [if_neg hyn] at hy
      exact hmr x ex y ey hx hy

theorem wf_mark_loaded (r r2 : Registry) (n : String) (t : Nat)
    (h : WfRegistry r) (hok : mark_loaded r n t = .ok r2) : WfRegistry r2 := by
  unfold mark_loaded at hok
  cases he : dlookup r n with
  | none => rw [he] at hok; exact absurd hok (by simp)
  | some e =>
      rw [he] at hok
      injection hok with hok
      subst hok
      exact wf_dupdate_edges r n _ (fun e => rfl) (fun e => rfl) h

theorem wf_mark_unloaded (r r2 : Registry) (n : String)
    (h : WfRegistry r) (hok : mark_unloaded r n = .ok r2) : WfRegistry r2 := by
  unfold mark_unloaded at hok
  cases he : dlookup r n with
  | none => rw [he] at hok; exact absurd hok (by simp)
  | some e =>
      rw [he] at hok
      injection hok with hok
      subst hok
      exact wf_dupdate_edges r n _ (fun e => rfl) (fun e => rfl) h

theorem wf_register_fresh (r : Registry) (n : String) (p : Option String) (pk ns : Bool)
    (h : WfRegistry r) (hn : contains r n = false) :
    WfRegistry (register r n p pk ns) := by
  obtain ⟨hnd, hcl, hmr⟩ := h
  have hnotmem : n ∉ get_all_modules r := by
    intro hmem
    rw [(contains_iff_mem_keys r n).mpr hmem] at hn
    exact Bool.true_eq_false.mp hn
  unfold register
  refine ⟨?_, ?_, ?_⟩
  · unfold NodupKeys at hnd ⊢
    rw [get_all_modules_dset, hn]
    simp only [Bool.false_eq_true, if_false]
    simp [List.nodup_append, hnd, hnotmem]
  · intro m e hm
    by_cases hmn : m = n
    · subst hmn
      rw [dlookup_dset_self] at hm
      injection hm with hm
      subst hm
      simp [freshEntry]
    · rw [dlookup_dset_ne r n m _ hmn] at hm
      have hold := hcl m e hm
      constructor
      · intro d hd
        rw [contains_dset]
        by_cases hdn : d = n
        · simp [hdn]
        · simp only [if_neg hdn]
          exact hold.1 d hd
      · intro d hd
        rw [contains_dset]
        by_cases hdn : d = n
        · simp [hdn]
        · simp only [if_neg hdn]
          exact hold.2 d hd
  · intro x ex y ey hx hy
    by_cases hxn : x = n <;> by_cases hyn : y = n
    · subst hxn; subst hyn
      rw [dlookup_dset_self] at hx hy
      injection hx with hx
      injection hy with hy
      subst hx; subst hy
      simp [freshEntry]
    · subst hxn
      rw [dlookup_dset_self] at hx
      injection hx with hx
      subst hx
      rw [dlookup_dset_ne r x y _ hyn] at hy
      simp only [freshEntry, List.not_mem_nil, false_iff]
      intro hmem
      have := (hcl y ey hy).2 x hmem
      rw [hn] at this
      simp at this
    · subst hyn
      rw [dlookup_dset_self] at hy
      injection hy with hy
      subst hy
      rw [dlookup_dset_ne r y x _ hxn] at hx
      simp only [freshEntry, List.not_mem_nil, iff_false]
      intro hmem
      have := (hcl x ex hx).1 y hmem
      rw [hn] at this
      simp at this
    · rw [dlookup_dset_ne r n x _ hxn] at hx
      rw [dlookup_dset_ne r n y _ hyn] at hy
      exact hmr x ex y ey hx hy

theorem wf_add_dependency (r r2 : Registry) (n d : String)
    (h : WfRegistry r) (hok : add_dependency r n d = .ok r2) : WfRegistry r2 := by
  obtain ⟨hnd, hcl, hmr⟩ := h
  unfold add_dependency at hok
  cases hn : dlookup r n with
  | none => rw [hn] at hok; exact absurd hok (by simp)
  | some en0 =>
    cases hd : dlookup r d with
    | none => rw [hn, hd] at hok; exact absurd hok (by simp)
    | some ed0 =>
      rw [hn, hd] at hok
      injection hok with hok
      subst hok
      have hstep : ∀ m, dlookup (dupdate
            (dupdate r n fun en => { en with dependencies := addToSet d en.dependencies })
            d fun en => { en with dependents := addToSet n en.dependents }) m =
          if m = d then
            ((if d = n then (dlookup r n).map
                (fun en => { en with dependencies := addToSet d en.dependencies })
              else dlookup r d).map fun en => { en with dependents := addToSet n en.dependents })
          else if m = n then (dlookup r n).map
                (fun en => { en with dependencies := addToSet d en.dependencies })
          else dlookup r m := by
        intro m
        simp only [dlookup_dupdate]
      have hchar : ∀ m e, dlookup (dupdate
            (dupdate r n fun en => { en with dependencies := addToSet d en.dependencies })
            d fun en => { en with dependents := addToSet n en.dependents }) m = some e →
          ∃ e0, dlookup r m = some e0 ∧
            e.dependencies = (if m = n then addToSet d e0.dependencies else e0.dependencies) ∧
            e.dependents = (if m = d then addToSet n e0.dependents else e0.dependents) := by
        intro m e hm
        rw [hstep m] at hm
        by_cases hmd : m = d
        · rw [if_pos hmd] at hm
          by_cases hdn : d = n
          · rw [if_pos hdn, hn] at hm
            simp only [Option.map_some'] at hm
            injection hm with hm
            subst hm
            refine ⟨en0, by rw [hmd, hdn]; exact hn, ?_, ?_⟩
            · simp [if_pos (hmd.trans hdn)]
            · simp [if_pos hmd]
          · rw [if_neg hdn, hd] at hm
            simp only [Option.map_some'] at hm
            injection hm with hm
            subst hm
            have hmn : ¬ m = n := fun hh => hdn (hmd ▸ hh)
            refine ⟨ed0, by rw [hmd]; exact hd, ?_, ?_⟩
            · simp [if_neg hmn]
            · simp [if_pos hmd]
        · rw [if_neg hmd] at hm
          by_cases hmn : m = n
          · rw [if_pos hmn, hn] at hm
            simp only [Option.map_some'] at hm
            injection hm with hm
            subst hm
            refine ⟨en0, by rw [hmn]; exact hn, ?_, ?_⟩
            · simp [if_pos hmn]
            · simp [if_neg hmd]
          · rw [if_neg hmn] at hm
            exact ⟨e, hm, by simp [if_neg hmn], by simp [if_neg hmd]⟩
      have hcont : ∀ x, contains (dupdate
            (dupdate r n fun en => { en with dependencies := addToSet d en.dependencies })
            d fun en => { en with dependents := addToSet n en.dependents }) x = contains r x := by
        intro x
        rw [contains_dupdate, contains_dupdate]
      refine ⟨?_, ?_, ?_⟩
      · unfold NodupKeys
        rw [get_all_modules_dupdate, get_all_modules_dupdate]
        exact hnd
      · intro m e hm
        obtain ⟨e0, he0, hdeps, hdept⟩ := hchar m e hm
        have hold := hcl m e0 he0
        constructor
        · intro x hx
          rw [hcont]
          rw [hdeps] at hx
          by_cases hmn : m = n
          · rw [if_pos hmn] at hx
            rcases (mem_addToSet x d e0.dependencies).mp hx with h1 | h2
            · subst h1; simp [contains, hd]
            · exact hold.1 x h2
          · rw [if_neg hmn] at hx
            exact hold.1 x hx
        · intro x hx
          rw [hcont]
          rw [hdept] at hx
          by_cases hmd : m = d
          · rw [if_pos hmd] at hx
            rcases (mem_addToSet x n e0.dependents).mp hx with h1 | h2
            · subst h1; simp [contains, hn]
            · exact hold.2 x h2
          · rw [if_neg hmd] at hx
            exact hold.2 x hx
      · intro x ex y ey hx hy
        obtain ⟨ex0, hx0, hxdeps, hxdept⟩ := hchar x ex hx
        obtain ⟨ey0, hy0, hydeps, hydept⟩ := hchar y ey hy
        have base := hmr x ex0 y ey0 hx0 hy0
        rw [hxdeps, hydept]
        by_cases hxn : x = n <;> by_cases hyd : y = d
        · subst hxn; subst hyd
          simp [mem_addToSet]
        · subst hxn
          rw [if_pos rfl, if_neg hyd]
          rw [mem_addToSet]
          constructor
          · rintro (h1 | h2)
            · exact absurd h1 hyd
            · exact base.mp h2
          · intro hh
            exact Or.inr (base.mpr hh)
        · subst hyd
          rw [if_neg hxn, if_pos rfl]
          rw [mem_addToSet]
          constructor
          · intro hh
            exact Or.inr (base.mp hh)
          · rintro (h1 | h2)
            · exact absurd h1 hxn
            · exact base.mpr h2
        · rw [if_neg hxn, if_neg hyd]
          exact base

theorem wf_unregister (r : Registry) (t : String) (h : WfRegistry r) :
    WfRegistry (unregister r t) := by
  obtain ⟨hnd, hcl, hmr⟩ := h
  cases he : dlookup r t with
  | none =>
      have hun : unregister r t = r := by
        unfold unregister
        rw [he]
      rw [hun]
      exact ⟨hnd, hcl, hmr⟩
  | some e0 =>
      have hun : unregister r t = dremove
          (e0.dependents.foldl (fun acc dep => dupdate acc dep
            (fun en => { en with dependencies := discardFromSet t en.dependencies }))
            (e0.dependencies.foldl (fun acc dep => dupdate acc dep
              (fun en => { en with dependents := discardFromSet t en.dependents })) r)) t := by
        unfold unregister
        rw [he]
      rw [hun]
      have hl1 := dlookup_foldl_dupdate e0.dependencies
        (fun en => { en with dependents := discardFromSet t en.dependents })
        (fun e => by simp [discardFromSet_idem]) r
      have hl2 := dlookup_foldl_dupdate e0.dependents
        (fun en => { en with dependencies := discardFromSet t en.dependencies })
        (fun e => by simp [discardFromSet_idem])
        (e0.dependencies.foldl (fun acc dep => dupdate acc dep
          (fun en => { en with dependents := discardFromSet t en.dependents })) r)
      have hkeys : get_all_modules
          (e0.dependents.foldl (fun acc dep => dupdate acc dep
            (fun en => { en with dependencies := discardFromSet t en.dependencies }))
            (e0.dependencies.foldl (fun acc dep => dupdate acc dep
              (fun en => { en with dependents := discardFromSet t en.dependents })) r)) =
          get_all_modules r := by
        rw [keys_foldl_dupdate, keys_foldl_dupdate]
      have hnd2 : (get_all_modules
          (e0.dependents.foldl (fun acc dep => dupdate acc dep
            (fun en => { en with dependencies := discardFromSet t en.dependencies }))
            (e0.dependencies.foldl (fun acc dep => dupdate acc dep
              (fun en => { en with dependents := discardFromSet t en.dependents })) r))).Nodup := by
        rw [hkeys]
        exact hnd
      have hchar : ∀ m e, m ≠ t →
          dlookup (dremove
            (e0.dependents.foldl (fun acc dep => dupdate acc dep
              (fun en => { en with dependencies := discardFromSet t en.dependencies }))
              (e0.dependencies.foldl (fun acc dep => dupdate acc dep
                (fun en => { en with dependents := discardFromSet t en.dependents })) r)) t) m
            = some e →
          ∃ em0, dlookup r m = some em0 ∧
            e.dependencies = (if m ∈ e0.dependents
              then discardFromSet t em0.dependencies else em0.dependencies) ∧
            e.dependents = (if m ∈ e0.dependencies
              then discardFromSet t em0.dependents else em0.dependents) := by
        intro m e hmt hm
        rw [dlookup_dremove_ne _ t m hmt, hl2 m, hl1 m] at hm
        by_cases h2 : m ∈ e0.dependents
        · rw [if_pos h2] at hm
          by_cases h1 : m ∈ e0.dependencies
          · rw [if_pos h1] at hm
            cases hem : dlookup r m with
            | none => rw [hem] at hm; simp at hm
            | some em0 =>
                rw [hem] at hm
                simp only [Option.map_some'] at hm
                injection hm with hm
                subst hm
                exact ⟨em0, rfl, by simp [if_pos h2], by simp [if_pos h1]⟩
          · rw [if_neg h1] at hm
            cases hem : dlookup r m with
            | none => rw [hem] at hm; simp at hm
            | some em0 =>
                rw [hem] at hm
                simp only [Option.map_some'] at hm
                injection hm with hm
                subst hm
                exact ⟨em0, rfl, by simp [if_pos h2], by simp [if_neg h1]⟩
        · rw [if_neg h2] at hm
          by_cases h1 : m ∈ e0.dependencies
          · rw [if_pos h1] at hm
            cases hem : dlookup r m with
            | none => rw [hem] at hm; simp at hm
            | some em0 =>
                rw [hem] at hm
                simp only [Option.map_some'] at hm
                injection hm with hm
                subst hm
                exact ⟨em0, rfl, by simp [if_neg h2], by simp [if_pos h1]⟩
          · rw [if_neg h1] at hm
            exact ⟨e, hm, by simp [if_neg h2], by simp [if_neg h1]⟩
      have hcont : ∀ x, x ≠ t → contains (dremove
          (e0.dependents.foldl (fun acc dep => dupdate acc dep
            (fun en => { en with dependencies := discardFromSet t en.dependencies }))
            (e0.dependencies.foldl (fun acc dep => dupdate acc dep
              (fun en => { en with dependents := discardFromSet t en.dependents })) r)) t) x
          = contains r x := by
        intro x hxt
        rw [contains_dremove_ne _ t x hxt]
        cases hc : contains r x with
        | true =>
            have hmem : x ∈ get_all_modules r := (contains_iff_mem_keys r x).mp hc
            exact (contains_iff_mem_keys _ x).mpr (hkeys ▸ hmem)
        | false =>
            cases hc2 : contains (e0.dependents.foldl (fun acc dep => dupdate acc dep
              (fun en => { en with dependencies := discardFromSet t en.dependencies }))
              (e0.dependencies.foldl (fun acc dep => dupdate acc dep
                (fun en => { en with dependents := discardFromSet t en.dependents })) r)) x with
            | true =>
                have hmem := (contains_iff_mem_keys _ x).mp hc2
                rw [hkeys] at hmem
                rw [(contains_iff_mem_keys r x).mpr hmem] at hc
                exact absurd hc (by simp)
            | false => rfl
      refine ⟨?_, ?_, ?_⟩
      · exact nodup_keys_dremove _ t hnd2
      · intro m e hm
        have hmt : m ≠ t := by
          intro hh
          rw [hh, dlookup_dremove_self _ t hnd2] at hm
          exact absurd hm (by simp)
        obtain ⟨em0, hem0, hdeps, hdept⟩ := hchar m e hmt hm
        have hold := hcl m em0 hem0
        constructor
        · intro x hx
          rw [hdeps] at hx
          have hxt : x ≠ t := by
            intro hh
            subst hh
            by_cases h2 : m ∈ e0.dependents
            · rw [if_pos h2] at hx
              exact ((mem_discardFromSet x x em0.dependencies).mp hx).2 rfl
            · rw [if_neg h2] at hx
              exact h2 ((hmr m em0 x e0 hem0 he).mp hx)
          have hxr : x ∈ em0.dependencies := by
            by_cases h2 : m ∈ e0.dependents
            · rw [if_pos h2] at hx
              exact ((mem_discardFromSet x t em0.dependencies).mp hx).1
            · rw [if_neg h2] at hx
              exact hx
          rw [hcont x hxt]
          exact hold.1 x hxr
        · intro x hx
          rw [hdept] at hx
          have hxt : x ≠ t := by
            intro hh
            subst hh
            by_cases h1 : m ∈ e0.dependencies
            · rw [if_pos h1] at hx
              exact ((mem_discardFromSet x x em0.dependents).mp hx).2 rfl
            · rw [if_neg h1] at hx
              exact h1 ((hmr x e0 m em0 he hem0).mpr hx)
          have hxr : x ∈ em0.dependents := by
            by_cases h1 : m ∈ e0.dependencies
            · rw [if_pos h1] at hx
              exact ((mem_discardFromSet x t em0.dependents).mp hx).1
            · rw [if_neg h1] at hx
              exact hx
          rw [hcont x hxt]
          exact hold.2 x hxr
      · intro x ex y ey hx hy
        have hxt : x ≠ t := by
          intro hh
          rw [hh, dlookup_dremove_self _ t hnd2] at hx
          exact absurd hx (by simp)
        have hyt : y ≠ t := by
          intro hh
          rw [hh, dlookup_dremove_self _ t hnd2] at hy
          exact absurd hy (by simp)
        obtain ⟨ex0, hex0, hxdeps, hxdept⟩ := hchar x ex hxt hx
        obtain ⟨ey0, hey0, hydeps, hydept⟩ := hchar y ey hyt hy
        have base := hmr x ex0 y ey0 hex0 hey0
        rw [hxdeps, hydept]
        have hleft : (y ∈ if x ∈ e0.dependents
            then discardFromSet t ex0.dependencies else ex0.dependencies) ↔
            y ∈ ex0.dependencies := by
          by_cases h2 : x ∈ e0.dependents
          · rw [if_pos h2, mem_discardFromSet]
            exact ⟨fun hh => hh.1, fun hh => ⟨hh, hyt⟩⟩
          · rw [if_neg h2]
        have hright : (x ∈ if y ∈ e0.dependencies
            then discardFromSet t ey0.dependents else ey0.dependents) ↔
            x ∈ ey0.dependents := by
          by_cases h1 : y ∈ e0.dependencies
          · rw [if_pos h1, mem_discardFromSet]
            exact ⟨fun hh => hh.1, fun hh => ⟨hh, hxt⟩⟩
          · rw [if_neg h1]
        rw [hleft, hright]
        exact base

/-! Lemmas about the resolution hook for unregistered names. -/

theorem py_split_go_ne_nil (c : Char) (l acc : List Char) :
    py_split_go c l acc ≠ [] := by
  induction l generalizing acc with
  | nil => simp [py_split_go]
  | cons x xs ih =>
      by_cases h : x = c
      · simp [py_split_go, h]
      · simp only [py_split_go, if_neg h]
        exact ih (x :: acc)

theorem py_split_ne_nil (c : Char) (s : String) : py_split c s ≠ [] := by
  unfold py_split
  intro h
  rw [List.map_eq_nil_iff] at h
  exact py_split_go_ne_nil c s.toList [] h

theorem py_join_cons_ne_empty (h : String) (t : List String) (hne : h ≠ "") :
    py_join "." (h :: t) ≠ "" := by
  cases t with
  | nil => simpa [py_join] using hne
  | cons y rest =>
      intro hcontra
      have hlen := congrArg String.length hcontra
      simp only [py_join] at hlen
      rw [String.length_append, String.length_append] at hlen
      have hdot : (("." : String)).length = 1 := by decide
      have hempty : (("" : String)).length = 0 := by decide
      omega

theorem find_parent_module_eq_none_iff (r : Registry) (fullname : String) :
    find_parent_module r fullname = none ↔
      ∀ i ∈ List.range' 1 ((py_split '.' fullname).length - 1),
        ∀ registered ∈ get_all_modules r,
          py_startswith registered
            (py_join "." ((py_split '.' fullname).take i) ++ ".") = false := by
  unfold find_parent_module
  rw [List.findSome?_eq_none_iff]
  constructor
  · intro h i hi registered hreg
    have hfi := h i hi
    by_cases hany : (get_all_modules r).any (fun registered =>
        py_startswith registered
          (py_join "." ((py_split '.' fullname).take i) ++ ".")) = true
    · rw [if_pos hany] at hfi
      simp at hfi
    · cases hps : py_startswith registered
          (py_join "." ((py_split '.' fullname).take i) ++ ".") with
      | false => rfl
      | true => exact absurd (List.any_eq_true.mpr ⟨registered, hreg, hps⟩) hany
  · intro h i hi
    have hany : (get_all_modules r).any (fun registered =>
        py_startswith registered
          (py_join "." ((py_split '.' fullname).take i) ++ ".")) = false := by
      cases hany2 : (get_all_modules r).any (fun registered =>
          py_startswith registered
            (py_join "." ((py_split '.' fullname).take i) ++ ".")) with
      | false => rfl
      | true =>
          obtain ⟨x, hx, hpx⟩ := List.any_eq_true.mp hany2
          rw [h i hi x hx] at hpx
          exact absurd hpx (by simp)
    simp [hany]

theorem find_parent_module_some_shape (r : Registry) (fullname p : String)
    (h : find_parent_module r fullname = some p) :
    ∃ i ∈ List.range' 1 ((py_split '.' fullname).length - 1),
      p = py_join "." ((py_split '.' fullname).take i) := by
  unfold find_parent_module at h
  obtain ⟨i, hi, hfi⟩ := List.exists_of_findSome?_eq_some h
  refine ⟨i, hi, ?_⟩
  by_cases hany : (get_all_modules r).any (fun registered =>
      py_startswith registered
        (py_join "." ((py_split '.' fullname).take i) ++ ".")) = true
  · rw [if_pos hany] at hfi
    injection hfi with hfi
    exact hfi.symm
  · rw [if_neg hany] at hfi
    exact absurd hfi (by simp)

theorem find_parent_module_some_ne_empty (r : Registry) (fullname p : String)
    (hne : (py_split '.' fullname).headD "" ≠ "")
    (h : find_parent_module r fullname = some p) : p ≠ "" := by
  obtain ⟨i, hi, hp⟩ := find_parent_module_some_shape r fullname p h
  obtain ⟨h1, _⟩ := List.mem_range'_1.mp hi
  cases hsplit : py_split '.' fullname with
  | nil => exact absurd hsplit (py_split_ne_nil '.' fullname)
  | cons hd tl =>
      rw [hsplit] at hne hp
      simp only [List.headD_cons] at hne
      obtain ⟨j, hj⟩ : ∃ j, i = j + 1 := ⟨i - 1, by omega⟩
      rw [hj] at hp
      simp only [List.take_succ_cons] at hp
      rw [hp]
      exact py_join_cons_ne_empty hd (tl.take j) hne

/-! Lemmas about the scanner. -/

theorem ne_append_dot (q s : String) : q ≠ q ++ "." ++ s := by
  intro h
  have hlen := congrArg String.length h
  rw [String.length_append, String.length_append] at hlen
  have hdot : (("." : String)).length = 1 := by decide
  omega

mutual
theorem scan_item_lookup_outside (item : FSEntry) (dirPath ns : String)
    (patterns : List String) (reg : Registry) (m : String)
    (hm : ∀ s, m ≠ ns ++ "." ++ s) :
    dlookup (scan_item item dirPath ns patterns reg) m = dlookup reg m := by
  cases item with
  | file iname =>
      unfold scan_item
      rw [show FSEntry.name (FSEntry.file iname) = iname from rfl]
      by_cases hig : should_ignore (dirPath ++ "/" ++ iname) patterns = true
      · simp [hig]
      · simp only [Bool.not_eq_true] at hig
        simp only [hig, Bool.false_eq_true, if_false]
        split
        · rw [register]
          exact dlookup_dset_ne reg _ m _ (hm (py_dropRight iname 3))
        · rfl
  | dir iname children =>
      unfold scan_item
      rw [show FSEntry.name (FSEntry.dir iname children) = iname from rfl]
      by_cases hig : should_ignore (dirPath ++ "/" ++ iname) patterns = true
      · simp [hig]
      · simp only [Bool.not_eq_true] at hig
        simp only [hig, Bool.false_eq_true, if_false]
        by_cases hinit : children.any (fun c => c.name == "__init__.py") = true
        · rw [if_pos hinit]
          rw [scan_items_lookup_outside children _ _ patterns _ m
            (fun s => by simpa [String.append_assoc] using hm (iname ++ "." ++ s))]
          rw [register]
          exact dlookup_dset_ne reg _ m _ (hm iname)
        · rw [if_neg hinit]
          by_cases hval : is_valid_namespace_package
              (dirPath ++ "/" ++ iname) children patterns = true
          · rw [if_pos hval]
            rw [scan_items_lookup_outside children _ _ patterns _ m
              (fun s => by simpa [String.append_assoc] using hm (iname ++ "." ++ s))]
            rw [register]
            exact dlookup_dset_ne reg _ m _ (hm iname)
          · rw [if_neg hval]
termination_by (sizeOf item, 1)

theorem scan_items_lookup_outside (items : List FSEntry) (dirPath ns : String)
    (patterns : List String) (reg : Registry) (m : String)
    (hm : ∀ s, m ≠ ns ++ "." ++ s) :
    dlookup (scan_items items dirPath ns patterns reg) m = dlookup reg m := by
  cases items with
  | nil => simp [scan_items]
  | cons item rest =>
      unfold scan_items
      rw [scan_items_lookup_outside rest dirPath ns patterns _ m hm]
      exact scan_item_lookup_outside item dirPath ns patterns reg m hm
termination_by (sizeOf items, 2)
end

theorem is_valid_namespace_package_iff (dirPath : String) (children : List FSEntry)
    (patterns : List String) :
    is_valid_namespace_package dirPath children patterns = true ↔
      ∃ item ∈ children,
        should_ignore (dirPath ++ "/" ++ item.name) patterns = false ∧
        (py_endswith item.name ".py" = true ∨
          ∃ sub ∈ item.children,
            (py_endswith sub.name ".py" = true ∨ sub.name = "__init__.py")) := by
  unfold is_valid_namespace_package
  rw [List.any_eq_true]
  constructor
  · rintro ⟨item, hitem, hcond⟩
    rw [Bool.and_eq_true] at hcond
    obtain ⟨hig, hrest⟩ := hcond
    refine ⟨item, hitem, by simpa using hig, ?_⟩
    rw [Bool.or_eq_true] at hrest
    rcases hrest with h1 | h2
    · exact Or.inl h1
    · right
      cases item with
      | file n => simp at h2
      | dir n cs =>
          obtain ⟨sub, hsub, hsubc⟩ := List.any_eq_true.mp h2
          rw [Bool.or_eq_true] at hsubc
          refine ⟨sub, by simpa [FSEntry.children] using hsub, ?_⟩
          rcases hsubc with h3 | h3
          · exact Or.inl h3
          · exact Or.inr (by simpa using h3)
  · rintro ⟨item, hitem, hig, hrest⟩
    refine ⟨item, hitem, ?_⟩
    rw [Bool.and_eq_true]
    refine ⟨by simp [hig], ?_⟩
    rw [Bool.or_eq_true]
    rcases hrest with h1 | ⟨sub, hsub, h3⟩
    · exact Or.inl h1
    · right
      cases item with
      | file n => simp [FSEntry.children] at hsub
      | dir n cs =>
          refine List.any_eq_true.mpr ⟨sub, by simpa [FSEntry.children] using hsub, ?_⟩
          rw [Bool.or_eq_true]
          rcases h3 with h4 | h4
          · exact Or.inl h4
          · exact Or.inr (by simp [h4])

/-! Lemmas about the dependents DFS of the reload controller. -/

theorem reach_trans (r : Registry) (a b c : String)
    (h1 : ReachDep r a b) (h2 : ReachDep r b c) : ReachDep r a c := by
  induction h2 with
  | refl => exact h1
  | step _ hd ih => exact ReachDep.step ih hd

theorem gdep_contains (r : Registry) (x d : String) (hcl : DepClosed r)
    (hx : contains r x = true) (hd : d ∈ gdep r x) : contains r d = true := by
  obtain ⟨e, he⟩ := contains_dlookup r x hx
  unfold gdep at hd
  rw [he] at hd
  exact hcl x e he d hd

theorem reach_contains (r : Registry) (n m : String) (hcl : DepClosed r)
    (hn : contains r n = true) (h : ReachDep r n m) : contains r m = true := by
  induction h with
  | refl => exact hn
  | step _ hd ih => exact gdep_contains r _ _ hcl ih hd

theorem depClosedB_correct (r : Registry) (h : depClosedB r = true) : DepClosed r := by
  unfold depClosedB at h
  rw [List.all_eq_true] at h
  intro n e he d hd
  have hp := h (n, e) (dlookup_mem r n e he)
  rw [List.all_eq_true] at hp
  exact hp d hd

theorem get_dependents_ok (r : Registry) (n : String) (hn : contains r n = true) :
    get_dependents r n = .ok (gdep r n) := by
  obtain ⟨e, he⟩ := contains_dlookup r n hn
  unfold get_dependents gdep
  rw [he]

theorem unvis_count_le_append (r : Registry) (vis dv : List String) :
    unvis_count r (vis ++ dv) ≤ unvis_count r vis := by
  unfold unvis_count
  apply List.Sublist.length_le
  apply List.monotone_filter_right
  intro a ha
  simp only [decide_eq_true_eq] at ha ⊢
  intro hmem
  exact ha (List.mem_append_left dv hmem)

theorem unvis_count_lt (r : Registry) (vis : List String) (n : String)
    (hn : contains r n = true) (hnv : n ∉ vis) :
    unvis_count r (vis ++ [n]) < unvis_count r vis := by
  unfold unvis_count
  have hfeq : ((get_all_modules r).dedup).filter (fun x => x ∉ vis ++ [n]) =
      List.filter (fun x => x ≠ n)
        (((get_all_modules r).dedup).filter (fun x => x ∉ vis)) := by
    rw [List.filter_filter]
    apply List.filter_congr
    intro x _
    by_cases h1 : x ∈ vis <;> by_cases h2 : x = n <;>
      simp [h1, h2, List.mem_append]
  rw [hfeq]
  apply List.length_filter_lt_length_iff_exists.mpr
  refine ⟨n, ?_, by simp⟩
  rw [List.mem_filter]
  refine ⟨List.mem_dedup.mpr ((contains_iff_mem_keys r n).mp hn), by simpa using hnv⟩

mutual
theorem visit_delta (r : Registry) (fuel : Nat) (n : String) (vis out : List String) :
    ∃ dv dout,
      (visit r fuel n vis out).1 = vis ++ dv ∧
      (visit r fuel n vis out).2 = out ++ dout ∧
      (∀ x, x ∈ dv ↔ x ∈ dout) ∧
      dout.Nodup ∧
      (∀ x ∈ dv, x ∉ vis) ∧
      (∀ x ∈ dout, ReachDep r n x) := by
  by_cases hv : n ∈ vis
  · have hvisit : visit r fuel n vis out = (vis, out) := by
      unfold visit
      rw [if_pos hv]
    refine ⟨[], [], by rw [hvisit]; simp, by rw [hvisit]; simp, by simp, by simp,
      by simp, by simp⟩
  · cases fuel with
    | zero =>
        have hvisit : visit r 0 n vis out = (vis, out) := by
          unfold visit
          rw [if_neg hv]
        refine ⟨[], [], by rw [hvisit]; simp, by rw [hvisit]; simp, by simp, by simp,
          by simp, by simp⟩
    | succ f =>
        have hvisit : visit r (f + 1) n vis out =
            ((visitList r f (gdep r n) (vis ++ [n]) out).1,
             (visitList r f (gdep r n) (vis ++ [n]) out).2 ++ [n]) := by
          unfold visit
          rw [if_neg hv]
        obtain ⟨dv1, dout1, h1, h2, hiff, hnd, hnv, hre⟩ :=
          visitList_delta r f (gdep r n) (vis ++ [n]) out
        refine ⟨[n] ++ dv1, dout1 ++ [n], ?_, ?_, ?_, ?_, ?_, ?_⟩
        · rw [hvisit]
          simp only [h1]
          rw [List.append_assoc]
        · rw [hvisit]
          simp only [h2]
          rw [List.append_assoc]
        · intro x
          simp only [List.mem_append, List.mem_cons, List.mem_singleton,
            List.not_mem_nil, or_false]
          rw [hiff x]
          tauto
        · rw [List.nodup_append]
          refine ⟨hnd, by simp, ?_⟩
          intro x hx
          simp only [List.mem_singleton]
          intro hxn
          subst hxn
          have := hnv x ((hiff x).mpr hx)
          exact this (List.mem_append_right vis (List.mem_singleton.mpr rfl))
        · intro x hx
          rcases List.mem_append.mp hx with h1x | h2x
          · rw [List.mem_singleton] at h1x
            subst h1x
            exact hv
          · intro hxv
            exact hnv x h2x (List.mem_append_left [n] hxv)
        · intro x hx
          rcases List.mem_append.mp hx with h1x | h2x
          · obtain ⟨c, hc, hcr⟩ := hre x h1x
            exact reach_trans r n c x (ReachDep.step (ReachDep.refl n) hc) hcr
          · rw [List.mem_singleton] at h2x
            rw [h2x]
            exact ReachDep.refl n
termination_by (fuel, 0)

theorem visitList_delta (r : Registry) (fuel : Nat) (cs : List String)
    (vis out : List String) :
    ∃ dv dout,
      (visitList r fuel cs vis out).1 = vis ++ dv ∧
      (visitList r fuel cs vis out).2 = out ++ dout ∧
      (∀ x, x ∈ dv ↔ x ∈ dout) ∧
      dout.Nodup ∧
      (∀ x ∈ dv, x ∉ vis) ∧
      (∀ x ∈ dout, ∃ c ∈ cs, ReachDep r c x) := by
  cases cs with
  | nil =>
      have hvl : visitList r fuel [] vis out = (vis, out) := by
        unfold visitList
        rfl
      refine ⟨[], [], by rw [hvl]; simp, by rw [hvl]; simp, by simp, by simp,
        by simp, by simp⟩
  | cons c cs =>
      have hvl : visitList r fuel (c :: cs) vis out =
          visitList r fuel cs (visit r fuel c vis out).1 (visit r fuel c vis out).2 := by
        conv_lhs => unfold visitList
      obtain ⟨dv1, dout1, h11, h12, hiff1, hnd1, hnv1, hre1⟩ :=
        visit_delta r fuel c vis out
      obtain ⟨dv2, dout2, h21, h22, hiff2, hnd2, hnv2, hre2⟩ :=
        visitList_delta r fuel cs (visit r fuel c vis out).1 (visit r fuel c vis out).2
      refine ⟨dv1 ++ dv2, dout1 ++ dout2, ?_, ?_, ?_, ?_, ?_, ?_⟩
      · rw [hvl, h21, h11, List.append_assoc]
      · rw [hvl, h22, h12, List.append_assoc]
      · intro x
        simp only [List.mem_append]
        rw [hiff1 x, hiff2 x]
      · rw [List.nodup_append]
        refine ⟨hnd1, hnd2, ?_⟩
        intro x hx1 hx2
        have := hnv2 x ((hiff2 x).mpr hx2)
        rw [h11] at this
        exact this (List.mem_append_right vis ((hiff1 x).mpr hx1))
      · intro x hx
        rcases List.mem_append.mp hx with h1x | h2x
        · exact hnv1 x h1x
        · intro hxv
          have := hnv2 x h2x
          rw [h11] at this
          exact this (List.mem_append_left dv1 hxv)
      · intro x hx
        rcases List.mem_append.mp hx with h1x | h2x
        · exact ⟨c, List.mem_cons_self c cs, hre1 x h1x⟩
        · obtain ⟨c2, hc2, hcr⟩ := hre2 x h2x
          exact ⟨c2, List.mem_cons_of_mem c hc2, hcr⟩
termination_by (fuel, cs.length + 1)
end

mutual
theorem visit_complete (r : Registry) (fuel : Nat) (n : String) (vis out : List String)
    (hcl : DepClosed r) (hn : contains r n = true ∨ n ∈ vis)
    (hfuel : unvis_count r vis < fuel) :
    n ∈ (visit r fuel n vis out).1 ∧
    (∀ x, x ∈ (visit r fuel n vis out).1 → x ∉ vis →
      ∀ d ∈ gdep r x, d ∈ (visit r fuel n vis out).1) := by
  by_cases hv : n ∈ vis
  · have hvisit : visit r fuel n vis out = (vis, out) := by
      unfold visit
      rw [if_pos hv]
    rw [hvisit]
    exact ⟨hv, fun x hx hnx => absurd hx hnx⟩
  · have hcn : contains r n = true := hn.resolve_right hv
    cases fuel with
    | zero => exact absurd hfuel (by omega)
    | succ f =>
        have hvisit : visit r (f + 1) n vis out =
            ((visitList r f (gdep r n) (vis ++ [n]) out).1,
             (visitList r f (gdep r n) (vis ++ [n]) out).2 ++ [n]) := by
          unfold visit
          rw [if_neg hv]
        have hfuel2 : unvis_count r (vis ++ [n]) < f := by
          have h1 := unvis_count_lt r vis n hcn hv
          omega
        have hcs : ∀ c ∈ gdep r n, contains r c = true ∨ c ∈ vis ++ [n] :=
          fun c hc => Or.inl (gdep_contains r n c hcl hcn hc)
        obtain ⟨hmemall, hclosure⟩ :=
          visitList_complete r f (gdep r n) (vis ++ [n]) out hcl hcs hfuel2
        rw [hvisit]
        constructor
        · obtain ⟨dv, dout, h1, _, _, _, _, _⟩ :=
            visitList_delta r f (gdep r n) (vis ++ [n]) out
          rw [h1]
          exact List.mem_append_left dv (List.mem_append_right vis (by simp))
        · intro x hx hnx d hd
          by_cases hxn : x = n
          · rw [hxn] at hd
            exact hmemall d hd
          · refine hclosure x hx ?_ d hd
            simp only [List.mem_append, List.mem_singleton]
            rintro (h1 | h2)
            · exact hnx h1
            · exact hxn h2
termination_by (fuel, 0)

theorem visitList_complete (r : Registry) (fuel : Nat) (cs : List String)
    (vis out : List String) (hcl : DepClosed r)
    (hcs : ∀ c ∈ cs, contains r c = true ∨ c ∈ vis)
    (hfuel : unvis_count r vis < fuel) :
    (∀ c ∈ cs, c ∈ (visitList r fuel cs vis out).1) ∧
    (∀ x, x ∈ (visitList r fuel cs vis out).1 → x ∉ vis →
      ∀ d ∈ gdep r x, d ∈ (visitList r fuel cs vis out).1) := by
  cases cs with
  | nil =>
      have hvl : visitList r fuel [] vis out = (vis, out) := by
        unfold visitList
        rfl
      rw [hvl]
      exact ⟨by simp, fun x hx hnx => absurd hx hnx⟩
  | cons c cs =>
      have hvl : visitList r fuel (c :: cs) vis out =
          visitList r fuel cs (visit r fuel c vis out).1 (visit r fuel c vis out).2 := by
        conv_lhs => unfold visitList
      obtain ⟨hcmem, hcclosure⟩ :=
        visit_complete r fuel c vis out hcl (hcs c (List.mem_cons_self c cs)) hfuel
      obtain ⟨dv1, dout1, h11, h12, _, _, _, _⟩ := visit_delta r fuel c vis out
      have hsubv1 : ∀ x, x ∈ vis → x ∈ (visit r fuel c vis out).1 := by
        intro x hx
        rw [h11]
        exact List.mem_append_left dv1 hx
      have hcs2 : ∀ c2 ∈ cs, contains r c2 = true ∨ c2 ∈ (visit r fuel c vis out).1 := by
        intro c2 hc2
        rcases hcs c2 (List.mem_cons_of_mem c hc2) with h | h
        · exact Or.inl h
        · exact Or.inr (hsubv1 c2 h)
      have hfuel2 : unvis_count r (visit r fuel c vis out).1 < fuel := by
        rw [h11]
        have := unvis_count_le_append r vis dv1
        omega
      obtain ⟨hrestmem, hrestclosure⟩ :=
        visitList_complete r fuel cs (visit r fuel c vis out).1
          (visit r fuel c vis out).2 hcl hcs2 hfuel2
      obtain ⟨dv2, dout2, h21, h22, _, _, _, _⟩ :=
        visitList_delta r fuel cs (visit r fuel c vis out).1 (visit r fuel c vis out).2
      have hsubres : ∀ x, x ∈ (visit r fuel c vis out).1 →
          x ∈ (visitList r fuel cs (visit r fuel c vis out).1
            (visit r fuel c vis out).2).1 := by
        intro x hx
        rw [h21]
        exact List.mem_append_left dv2 hx
      rw [hvl]
      constructor
      · intro c2 hc2
        rcases List.mem_cons.mp hc2 with h | h
        · rw [h]
          exact hsubres c hcmem
        · exact hrestmem c2 h
      · intro x hx hnx d hd
        by_cases hxv1 : x ∈ (visit r fuel c vis out).1
        · exact hsubres d (hcclosure x hxv1 hnx d hd)
        · exact hrestclosure x hx hxv1 d hd
termination_by (fuel, cs.length + 1)
end

mutual
theorem visitE_eq (r : Registry) (fuel : Nat) (n : String) (vis out : List String)
    (hcl : DepClosed r) (hn : contains r n = true ∨ n ∈ vis) :
    visitE r fuel n vis out = .ok (visit r fuel n vis out) := by
  by_cases hv : n ∈ vis
  · have h1 : visitE r fuel n vis out = .ok (vis, out) := by
      unfold visitE
      rw [if_pos hv]
    have h2 : visit r fuel n vis out = (vis, out) := by
      unfold visit
      rw [if_pos hv]
    rw [h1, h2]
  · have hcn : contains r n = true := hn.resolve_right hv
    cases fuel with
    | zero =>
        have h1 : visitE r 0 n vis out = .ok (vis, out) := by
          unfold visitE
          rw [if_neg hv]
        have h2 : visit r 0 n vis out = (vis, out) := by
          unfold visit
          rw [if_neg hv]
        rw [h1, h2]
    | succ f =>
        have hdeps := get_dependents_ok r n hcn
        have h1 : visitE r (f + 1) n vis out =
            (match visitListE r f (gdep r n) (vis ++ [n]) out with
             | .error msg => .error msg
             | .ok p => .ok (p.1, p.2 ++ [n])) := by
          unfold visitE
          rw [if_neg hv, hdeps]
        have hcs : ∀ c ∈ gdep r n, contains r c = true ∨ c ∈ vis ++ [n] :=
          fun c hc => Or.inl (gdep_contains r n c hcl hcn hc)
        have hEL := visitListE_eq r f (gdep r n) (vis ++ [n]) out hcl hcs
        have h2 : visit r (f + 1) n vis out =
            ((visitList r f (gdep r n) (vis ++ [n]) out).1,
             (visitList r f (gdep r n) (vis ++ [n]) out).2 ++ [n]) := by
          unfold visit
          rw [if_neg hv]
        rw [h1, hEL, h2]
termination_by (fuel, 0)

theorem visitListE_eq (r : Registry) (fuel : Nat) (cs : List String)
    (vis out : List String) (hcl : DepClosed r)
    (hcs : ∀ c ∈ cs, contains r c = true ∨ c ∈ vis) :
    visitListE r fuel cs vis out = .ok (visitList r fuel cs vis out) := by
  cases cs with
  | nil =>
      have h1 : visitListE r fuel [] vis out = .ok (vis, out) := by
        unfold visitListE
        rfl
      have h2 : visitList r fuel [] vis out = (vis, out) := by
        unfold visitList
        rfl
      rw [h1, h2]
  | cons c cs =>
      have hE1 := visitE_eq r fuel c vis out hcl (hcs c (List.mem_cons_self c cs))
      have h1 : visitListE r fuel (c :: cs) vis out =
          (match visitE r fuel c vis out with
           | .error msg => .error msg
           | .ok p => visitListE r fuel cs p.1 p.2) := by
        conv_lhs => unfold visitListE
      obtain ⟨dv1, dout1, h11, _, _, _, _, _⟩ := visit_delta r fuel c vis out
      have hcs2 : ∀ c2 ∈ cs, contains r c2 = true ∨ c2 ∈ (visit r fuel c vis out).1 := by
        intro c2 hc2
        rcases hcs c2 (List.mem_cons_of_mem c hc2) with h | h
        · exact Or.inl h
        · right
          rw [h11]
          exact List.mem_append_left dv1 h
      have hEL := visitListE_eq r fuel cs (visit r fuel c vis out).1
        (visit r fuel c vis out).2 hcl hcs2
      have h2 : visitList r fuel (c :: cs) vis out =
          visitList r fuel cs (visit r fuel c vis out).1 (visit r fuel c vis out).2 := by
        conv_lhs => unfold visitList
      rw [h1, hE1, h2]
      exact hEL
termination_by (fuel, cs.length + 1)
end

mutual
theorem visit_order (r : Registry) (fuel : Nat) (n : String) (vis out : List String)
    (hcl : DepClosed r) (hacy : AcyclicDep r)
    (hn : contains r n = true ∨ n ∈ vis)
    (hfuel : unvis_count r vis < fuel)
    (hgrey : ∀ y, y ∈ vis → y ∉ out → ReachDep r y n)
    (hsub : ∀ x, x ∈ out → x ∈ vis)
    (hord : ∀ o1 x o2, out = o1 ++ x :: o2 → ∀ d ∈ gdep r x, d ∈ o1) :
    ∀ o1 x o2, (visit r fuel n vis out).2 = o1 ++ x :: o2 →
      ∀ d ∈ gdep r x, d ∈ o1 := by
  by_cases hv : n ∈ vis
  · have hvisit : visit r fuel n vis out = (vis, out) := by
      unfold visit
      rw [if_pos hv]
    rw [hvisit]
    exact hord
  · have hcn : contains r n = true := hn.resolve_right hv
    cases fuel with
    | zero => exact absurd hfuel (by omega)
    | succ f =>
        have hvisit : visit r (f + 1) n vis out =
            ((visitList r f (gdep r n) (vis ++ [n]) out).1,
             (visitList r f (gdep r n) (vis ++ [n]) out).2 ++ [n]) := by
          unfold visit
          rw [if_neg hv]
        have hfuel2 : unvis_count r (vis ++ [n]) < f := by
          have h1 := unvis_count_lt r vis n hcn hv
          omega
        have hcs : ∀ c ∈ gdep r n, contains r c = true ∨ c ∈ vis ++ [n] :=
          fun c hc => Or.inl (gdep_contains r n c hcl hcn hc)
        have hgrey2 : ∀ y, y ∈ vis ++ [n] → y ∉ out → ∀ c ∈ gdep r n, ReachDep r y c := by
          intro y hy hyo c hc
          rcases List.mem_append.mp hy with h1 | h2
          · exact ReachDep.step (hgrey y h1 hyo) hc
          · rw [List.mem_singleton] at h2
            rw [h2]
            exact ReachDep.step (ReachDep.refl n) hc
        have hsub2 : ∀ x, x ∈ out → x ∈ vis ++ [n] :=
          fun x hx => List.mem_append_left [n] (hsub x hx)
        have hordc := visitList_order r f (gdep r n) (vis ++ [n]) out hcl hacy hcs
          hfuel2 hgrey2 hsub2 hord
        obtain ⟨dv, dout, hd1, hd2, hdiff, _, _, _⟩ :=
          visitList_delta r f (gdep r n) (vis ++ [n]) out
        obtain ⟨hmemall, _⟩ :=
          visitList_complete r f (gdep r n) (vis ++ [n]) out hcl hcs hfuel2
        have hvisit2 : (visit r (f + 1) n vis out).2 =
            (visitList r f (gdep r n) (vis ++ [n]) out).2 ++ [n] := by
          rw [hvisit]
        rw [hvisit2]
        intro o1 x o2 heq d hd
        rcases List.eq_nil_or_concat o2 with ho2 | ⟨o2p, a, ho2⟩
        · subst ho2
          obtain ⟨ho1, hxn⟩ := List.append_inj' heq (by simp)
          have hnx : n = x := by injection hxn
          rw [← ho1]
          rw [← hnx] at hd
          by_contra hdout
          have hdvc : d ∈ (visitList r f (gdep r n) (vis ++ [n]) out).1 := hmemall d hd
          have hdold : d ∈ vis ++ [n] := by
            rw [hd1] at hdvc
            rcases List.mem_append.mp hdvc with h1 | h2
            · exact h1
            · exact absurd
                (by rw [hd2]; exact List.mem_append_right out ((hdiff d).mp h2)) hdout
          have hdnotout : d ∉ out := by
            intro hdo
            exact hdout (by rw [hd2]; exact List.mem_append_left dout hdo)
          rcases List.mem_append.mp hdold with h1 | h2
          · exact hacy n d hd (hgrey d h1 hdnotout)
          · rw [List.mem_singleton] at h2
            rw [h2] at hd
            exact hacy n n hd (ReachDep.refl n)
        · subst ho2
          rw [List.concat_eq_append] at heq
          have heq2 : (o1 ++ x :: o2p) ++ [a] =
              (visitList r f (gdep r n) (vis ++ [n]) out).2 ++ [n] := by
            simp only [List.append_assoc, List.cons_append]
            exact heq.symm
          obtain ⟨ho1, _⟩ := List.append_inj' heq2 (by simp)
          exact hordc o1 x o2p ho1.symm d hd
termination_by (fuel, 0)

theorem visitList_order (r : Registry) (fuel : Nat) (cs : List String)
    (vis out : List String)
    (hcl : DepClosed r) (hacy : AcyclicDep r)
    (hcs : ∀ c ∈ cs, contains r c = true ∨ c ∈ vis)
    (hfuel : unvis_count r vis < fuel)
    (hgrey : ∀ y, y ∈ vis → y ∉ out → ∀ c ∈ cs, ReachDep r y c)
    (hsub : ∀ x, x ∈ out → x ∈ vis)
    (hord : ∀ o1 x o2, out = o1 ++ x :: o2 → ∀ d ∈ gdep r x, d ∈ o1) :
    ∀ o1 x o2, (visitList r fuel cs vis out).2 = o1 ++ x :: o2 →
      ∀ d ∈ gdep r x, d ∈ o1 := by
  cases cs with
  | nil =>
      have hvl : visitList r fuel [] vis out = (vis, out) := by
        unfold visitList
        rfl
      rw [hvl]
      exact hord
  | cons c cs =>
      have hvl : visitList r fuel (c :: cs) vis out =
          visitList r fuel cs (visit r fuel c vis out).1 (visit r fuel c vis out).2 := by
        conv_lhs => unfold visitList
      have hgrey1 : ∀ y, y ∈ vis → y ∉ out → ReachDep r y c :=
        fun y hy hyo => hgrey y hy hyo c (List.mem_cons_self c cs)
      have hordv := visit_order r fuel c vis out hcl hacy
        (hcs c (List.mem_cons_self c cs)) hfuel hgrey1 hsub hord
      obtain ⟨dv1, dout1, h11, h12, hiff1, _, _, _⟩ := visit_delta r fuel c vis out
      have hcs2 : ∀ c2 ∈ cs, contains r c2 = true ∨ c2 ∈ (visit r fuel c vis out).1 := by
        intro c2 hc2
        rcases hcs c2 (List.mem_cons_of_mem c hc2) with h | h
        · exact Or.inl h
        · right
          rw [h11]
          exact List.mem_append_left dv1 h
      have hfuel2 : unvis_count r (visit r fuel c vis out).1 < fuel := by
        rw [h11]
        have := unvis_count_le_append r vis dv1
        omega
      have hgrey2 : ∀ y, y ∈ (visit r fuel c vis out).1 →
          y ∉ (visit r fuel c vis out).2 → ∀ c2 ∈ cs, ReachDep r y c2 := by
        intro y hy hyo c2 hc2
        have hyvis : y ∈ vis := by
          rw [h11] at hy
          rcases List.mem_append.mp hy with h1 | h2
          · exact h1
          · exfalso
            apply hyo
            rw [h12]
            exact List.mem_append_right out ((hiff1 y).mp h2)
        have hyout : y ∉ out := by
          intro hyo2
          apply hyo
          rw [h12]
          exact List.mem_append_left dout1 hyo2
        exact hgrey y hyvis hyout c2 (List.mem_cons_of_mem c hc2)
      have hsub2 : ∀ x, x ∈ (visit r fuel c vis out).2 →
          x ∈ (visit r fuel c vis out).1 := by
        intro x hx
        rw [h12] at hx
        rw [h11]
        rcases List.mem_append.mp hx with h1 | h2
        · exact List.mem_append_left dv1 (hsub x h1)
        · exact List.mem_append_right vis ((hiff1 x).mpr h2)
      have hrest := visitList_order r fuel cs (visit r fuel c vis out).1
        (visit r fuel c vis out).2 hcl hacy hcs2 hfuel2 hgrey2 hsub2 hordv
      rw [hvl]
      exact hrest
termination_by (fuel, cs.length + 1)
end

theorem dfs_order_spec (r : Registry) (n : String)
    (hcl : DepClosed r) (hn : contains r n = true) :
    ∃ L, get_dependent_modules_in_order r n = .ok L ∧
      L.Nodup ∧
      (∀ m, m ∈ L ↔ ReachDep r n m) ∧
      (AcyclicDep r → ∀ o1 x o2, L = o1 ++ x :: o2 → ∀ d ∈ gdep r x, d ∈ o1) := by
  have hfuel : unvis_count r [] < r.length + 1 := by
    unfold unvis_count
    have h1 : ((((get_all_modules r).dedup)).filter
        (fun x => x ∉ ([] : List String))).length ≤ (get_all_modules r).dedup.length :=
      List.Sublist.length_le (List.filter_sublist _)
    have h2 : (get_all_modules r).dedup.length ≤ (get_all_modules r).length :=
      List.Sublist.length_le (List.dedup_sublist _)
    have h3 : (get_all_modules r).length = r.length := by simp [get_all_modules]
    omega
  have hE := visitE_eq r (r.length + 1) n [] [] hcl (Or.inl hn)
  have hgd : get_dependent_modules_in_order r n =
      .ok ((visit r (r.length + 1) n [] []).2) := by
    unfold get_dependent_modules_in_order
    rw [hE]
  obtain ⟨dv, dout, h1, h2, hiff, hnd, hnv, hre⟩ := visit_delta r (r.length + 1) n [] []
  refine ⟨(visit r (r.length + 1) n [] []).2, hgd, ?_, ?_, ?_⟩
  · rw [h2]
    simpa using hnd
  · intro m
    constructor
    · intro hm
      rw [h2] at hm
      exact hre m (by simpa using hm)
    · intro hm
      obtain ⟨hmem, hclo⟩ := visit_complete r (r.length + 1) n [] [] hcl (Or.inl hn) hfuel
      have hv : m ∈ (visit r (r.length + 1) n [] []).1 := by
        induction hm with
        | refl => exact hmem
        | step h hd ih => exact hclo _ ih (by simp) _ hd
      rw [h2]
      rw [h1] at hv
      simp only [List.nil_append] at hv ⊢
      exact (hiff m).mp hv
  · intro hacy
    exact visit_order r (r.length + 1) n [] [] hcl hacy (Or.inl hn) hfuel
      (by simp) (by simp) (fun o1 x o2 h => absurd h (by simp))

theorem unload_loop_spec : ∀ (L : List String) (st : HostState),
    L.Nodup →
    (∀ m ∈ L, contains st.registry m = true) →
    ∃ st2, unload_loop st L = .ok st2 ∧
      (∀ x, contains st2.registry x = contains st.registry x) ∧
      (∀ x, x ∈ st2.sys_modules → x ∈ st.sys_modules) ∧
      (∀ x, is_loaded st.registry x = .ok false → is_loaded st2.registry x = .ok false) ∧
      (∀ m ∈ L, m ∈ st.sys_modules →
        (m ∉ st2.sys_modules ∧ is_loaded st2.registry m = .ok false)) := by
  intro L
  induction L with
  | nil =>
      intro st _ _
      refine ⟨st, rfl, fun x => rfl, fun x hx => hx, fun x hx => hx, by simp⟩
  | cons m rest ih =>
      intro st hnd hreg
      have hndr : rest.Nodup := (List.nodup_cons.mp hnd).2
      have hmr : m ∉ rest := (List.nodup_cons.mp hnd).1
      by_cases hm : m ∈ st.sys_modules
      · have hcm : contains st.registry m = true := hreg m (List.mem_cons_self m rest)
        obtain ⟨e, he⟩ := contains_dlookup _ m hcm
        have hmu : mark_unloaded st.registry m =
            .ok (dupdate st.registry m (fun en => { en with loaded := false })) := by
          unfold mark_unloaded
          rw [he]
        have hstep : unload_loop st (m :: rest) =
            unload_loop
              ⟨dupdate st.registry m (fun en => { en with loaded := false }),
               st.sys_modules.filter (fun x => x ≠ m)⟩ rest := by
          show (if m ∈ st.sys_modules then
              match mark_unloaded st.registry m with
              | .error msg => .error msg
              | .ok r2 => unload_loop ⟨r2, st.sys_modules.filter (fun x => x ≠ m)⟩ rest
            else unload_loop st rest) = _
          rw [if_pos hm, hmu]
        have hreg1 : ∀ m2 ∈ rest, contains
            (HostState.mk (dupdate st.registry m (fun en => { en with loaded := false }))
              (st.sys_modules.filter (fun x => x ≠ m))).registry m2 = true := by
          intro m2 hm2
          show contains (dupdate st.registry m _) m2 = true
          rw [contains_dupdate]
          exact hreg m2 (List.mem_cons_of_mem m hm2)
        obtain ⟨st2, h2ok, h2cont, h2sys, h2pres, h2main⟩ :=
          ih (HostState.mk (dupdate st.registry m (fun en => { en with loaded := false }))
            (st.sys_modules.filter (fun x => x ≠ m))) hndr hreg1
        have hload1 : ∀ x, is_loaded st.registry x = .ok false →
            is_loaded (dupdate st.registry m (fun en => { en with loaded := false })) x
              = .ok false := by
          intro x hlx
          unfold is_loaded at hlx ⊢
          rw [dlookup_dupdate]
          by_cases hxm : x = m
          · rw [if_pos hxm, ← hxm]
            cases hx2 : dlookup st.registry x with
            | none => rw [hx2] at hlx; exact absurd hlx (by simp)
            | some e2 => simp
          · rw [if_neg hxm]
            exact hlx
        have hloadm : is_loaded
            (dupdate st.registry m (fun en => { en with loaded := false })) m
              = .ok false := by
          unfold is_loaded
          rw [dlookup_dupdate, if_pos rfl, he]
          simp
        refine ⟨st2, by rw [hstep]; exact h2ok, ?_, ?_, ?_, ?_⟩
        · intro x
          rw [h2cont x]
          show contains (dupdate st.registry m _) x = contains st.registry x
          rw [contains_dupdate]
        · intro x hx
          have := h2sys x hx
          exact (List.mem_filter.mp this).1
        · intro x hlx
          exact h2pres x (hload1 x hlx)
        · intro m2 hm2 hm2sys
          rcases List.mem_cons.mp hm2 with h | h
          · subst h
            constructor
            · intro hmem2
              have := h2sys m2 hmem2
              rw [List.mem_filter] at this
              simp at this
            · exact h2pres m2 hloadm
          · refine h2main m2 h ?_
            show m2 ∈ st.sys_modules.filter (fun x => x ≠ m)
            rw [List.mem_filter]
            refine ⟨hm2sys, ?_⟩
            simp only [decide_eq_true_eq]
            intro hmm
            rw [hmm] at h
            exact hmr h
      · have hstep : unload_loop st (m :: rest) = unload_loop st rest := by
          show (if m ∈ st.sys_modules then
              match mark_unloaded st.registry m with
              | .error msg => .error msg
              | .ok r2 => unload_loop ⟨r2, st.sys_modules.filter (fun x => x ≠ m)⟩ rest
            else unload_loop st rest) = unload_loop st rest
          rw [if_neg hm]
        obtain ⟨st2, h2ok, h2cont, h2sys, h2pres, h2main⟩ :=
          ih st hndr (fun m2 hm2 => hreg m2 (List.mem_cons_of_mem m hm2))
        refine ⟨st2, by rw [hstep]; exact h2ok, h2cont, h2sys, h2pres, ?_⟩
        intro m2 hm2 hm2sys
        rcases List.mem_cons.mp hm2 with h | h
        · rw [h] at hm2sys
          exact absurd hm2sys hm
        · exact h2main m2 h hm2sys

/-! Claim theorems. -/

/-- C10: calling unregister on a name that is not registered returns
normally and leaves the registry completely unchanged, while the query
operations (here get_path) raise the unknown-name error on the same name;
likewise reload_module on an unregistered name returns early without
modifying the registry or the host module cache. -/
theorem claim_C10_unknown_name_noops (st : HostState) (n : String)
    (h : contains st.registry n = false) :
    unregister st.registry n = st.registry ∧
    (∃ msg, get_path st.registry n = .error msg) ∧
    reload_module_unload st n = .ok (st, []) := by
  refine ⟨?_, ?_, ?_⟩
  · unfold unregister
    cases he : dlookup st.registry n with
    | none => rfl
    | some e =>
        unfold contains at h
        rw [he] at h
        simp at h
  · unfold get_path
    cases he : dlookup st.registry n with
    | none => exact ⟨_, rfl⟩
    | some e =>
        unfold contains at h
        rw [he] at h
        simp at h
  · unfold reload_module_unload
    rw [h]
    simp

/-- C10 witness: the theorem applied to the empty host state and an
unregistered name. -/
theorem claim_C10_witness :
    unregister (HostState.mk [] []).registry "x" = (HostState.mk [] []).registry ∧
    (∃ msg, get_path (HostState.mk [] []).registry "x" = .error msg) ∧
    reload_module_unload (HostState.mk [] []) "x" = .ok (HostState.mk [] [], []) :=
  claim_C10_unknown_name_noops (HostState.mk [] []) "x" (by decide)

/-- C7 counterexample: starting from the empty registry, register a,
register b, add the dependency a depends-on b, then register a again.
Before the duplicate insert deps(a) is the singleton containing b; after
it, deps(a) is empty — the duplicate insert does not leave the dependency
edges of the re-registered name intact. -/
theorem claim_C7_counterexample :
    (get_dependencies (apply_operation (apply_operation (apply_operation []
        (RegOp.register "a" (some "/a.py") false false))
        (RegOp.register "b" (some "/b.py") false false))
        (RegOp.add_dependency "a" "b")) "a" = .ok ["b"]) ∧
    (get_dependencies (apply_operation (apply_operation (apply_operation (apply_operation []
        (RegOp.register "a" (some "/a.py") false false))
        (RegOp.register "b" (some "/b.py") false false))
        (RegOp.add_dependency "a" "b"))
        (RegOp.register "a" (some "/a.py") false false)) "a" = .ok []) := by
  constructor
  · rfl
  · rfl

/-- C7 amended: registering an already-registered name replaces the prior
entry wholesale — the new entry has the given path and kind with loaded
False, mtime None and EMPTY dependency and dependent sets — while the
entry stored under every other name (hence every mirrored edge recorded on
other entries) is unchanged. -/
theorem claim_C7_duplicate_register_replaces (r : Registry) (n : String)
    (p : Option String) (pk ns : Bool) (h : contains r n = true) :
    dlookup (register r n p pk ns) n = some (freshEntry p pk ns) ∧
    ∀ m, m ≠ n → dlookup (register r n p pk ns) m = dlookup r m :=
  ⟨dlookup_dset_self r n _, fun m hm => dlookup_dset_ne r n m _ hm⟩

/-- C7 witness: the amended theorem applied to a registry in which a is
registered. -/
theorem claim_C7_witness :
    dlookup (register (register [] "a" (some "/a.py") false false) "a" (some "/a2.py") true false) "a"
      = some (freshEntry (some "/a2.py") true false) ∧
    ∀ m, m ≠ "a" →
      dlookup (register (register [] "a" (some "/a.py") false false) "a" (some "/a2.py") true false) m
        = dlookup (register [] "a" (some "/a.py") false false) m :=
  claim_C7_duplicate_register_replaces (register [] "a" (some "/a.py") false false)
    "a" (some "/a2.py") true false (by decide)

/-- C8 counterexample: registering a under path /x.py and then b under the
same path /x.py (both non-namespace module entries) leaves BOTH entries
live with the same path — the prior entry is not replaced, so paths are
not injective over non-namespace entries. -/
theorem claim_C8_counterexample :
    (contains (register (register [] "a" (some "/x.py") false false)
        "b" (some "/x.py") false false) "a" = true) ∧
    (contains (register (register [] "a" (some "/x.py") false false)
        "b" (some "/x.py") false false) "b" = true) ∧
    (get_path (register (register [] "a" (some "/x.py") false false)
        "b" (some "/x.py") false false) "a" = .ok (some "/x.py")) ∧
    (get_path (register (register [] "a" (some "/x.py") false false)
        "b" (some "/x.py") false false) "b" = .ok (some "/x.py")) ∧
    (is_namespace_package (register (register [] "a" (some "/x.py") false false)
        "b" (some "/x.py") false false) "a" = .ok false) ∧
    (is_namespace_package (register (register [] "a" (some "/x.py") false false)
        "b" (some "/x.py") false false) "b" = .ok false) := by
  refine ⟨rfl, rfl, rfl, rfl, rfl, rfl⟩

/-- C8 amended: register keys entries solely by name and never removes an
entry stored under a different name; in particular inserting a
non-namespace entry whose path is already held by a different
non-namespace entry leaves that prior entry untouched, so after such an
insert two live non-namespace entries share the path (path injectivity is
not enforced by the code). -/
theorem claim_C8_no_path_replacement (r : Registry) (a b : String)
    (pa : Option String) (ea : ModuleEntry)
    (hab : a ≠ b) (ha : dlookup r a = some ea) (hpa : ea.path = pa)
    (hans : ea.is_namespace_package = false) :
    dlookup (register r b pa false false) a = some ea ∧
    dlookup (register r b pa false false) b = some (freshEntry pa false false) := by
  constructor
  · rw [register, dlookup_dset_ne r b a _ hab]
    exact ha
  · exact dlookup_dset_self r b _

/-- C8 witness: the amended theorem applied to a registry holding a at
path /x.py, inserting b at the same path. -/
theorem claim_C8_witness :
    dlookup (register (register [] "a" (some "/x.py") false false) "b" (some "/x.py") false false) "a"
      = some (freshEntry (some "/x.py") false false) ∧
    dlookup (register (register [] "a" (some "/x.py") false false) "b" (some "/x.py") false false) "b"
      = some (freshEntry (some "/x.py") false false) :=
  claim_C8_no_path_replacement (register [] "a" (some "/x.py") false false)
    "a" "b" (some "/x.py") (freshEntry (some "/x.py") false false)
    (by decide) (by decide) (by decide) (by decide)

/-- C1 (code bug): with app.models.base and app.models.user registered and
the user source importing app.models.base, calculate_dependencies would
produce the nonempty dependency set containing app.models.base; yet the
loader's exec_module performs no edge recording at all — its registry
effect is exactly mark_loaded — so after loading user both deps(user) and
dependents(base) are still empty.  The repository's own
test_basic_dependency_tracking asserts that dependents of app.models.base
contain app.models.user after the import. -/
theorem claim_C1_loader_records_no_edges :
    (calculate_dependencies "app.models.user" ["app.models.base"]
      (register (register [] "app.models.base" (some "/app/models/base.py") false false)
        "app.models.user" (some "/app/models/user.py") false false)
      = ["app.models.base"]) ∧
    ((exec_module_registry
        (register (register [] "app.models.base" (some "/app/models/base.py") false false)
          "app.models.user" (some "/app/models/user.py") false false)
        "app.models.user" 100).bind
      (fun r2 => get_dependents r2 "app.models.base") = .ok []) ∧
    ((exec_module_registry
        (register (register [] "app.models.base" (some "/app/models/base.py") false false)
          "app.models.user" (some "/app/models/user.py") false false)
        "app.models.user" 100).bind
      (fun r2 => get_dependencies r2 "app.models.user") = .ok []) ∧
    ((exec_module_registry
        (register (register [] "app.models.base" (some "/app/models/base.py") false false)
          "app.models.user" (some "/app/models/user.py") false false)
        "app.models.user" 100).bind
      (fun r2 => is_loaded r2 "app.models.user") = .ok true) := by
  refine ⟨rfl, rfl, rfl, rfl⟩

/-- C3 (code bug): for a registered namespace-package entry (registered by
the scanner with is_package True and is_namespace_package True, path the
directory itself), find_spec returns a spec carrying a PyAutoloadLoader —
not the loader-less namespace descriptor the spec and the repository test
test_finder_with_namespace_packages require — and its submodule search
locations hold the dirname of the entry path rather than the path. -/
theorem claim_C3_namespace_entry_gets_loader :
    find_spec
      { base_paths := []
        registry := register [] "namespace_app.models"
          (some "/tmp/namespace_app/models") true true
        isdir := fun _ => false }
      "namespace_app.models" =
    .ok (some
      { name := "namespace_app.models"
        loader := some
          { fullname := "namespace_app.models"
            filepath := some "/tmp/namespace_app/models" }
        origin := some "/tmp/namespace_app/models"
        submodule_search_locations := some [some "/tmp/namespace_app"] }) := by
  rfl

/-- C6 counterexample: with only app.models registered, no registered name
begins with "app.nonexistent." and the query app.nonexistent is not
registered, so the claim requires the None sentinel; the code instead
synthesizes a namespace descriptor for app.nonexistent, because
_find_parent_module searches proper prefixes of the query ("app." matches
app.models) rather than extensions of the full query. -/
theorem claim_C6_counterexample :
    (contains (register [] "app.models" (some "/p/app/models/__init__.py") true false)
      "app.nonexistent" = false) ∧
    ((get_all_modules (register [] "app.models" (some "/p/app/models/__init__.py") true false)).any
      (fun registered => py_startswith registered "app.nonexistent.") = false) ∧
    (find_spec
      { base_paths := []
        registry := register [] "app.models" (some "/p/app/models/__init__.py") true false
        isdir := fun _ => false }
      "app.nonexistent" =
      .ok (some (create_namespace_package_spec
        { base_paths := []
          registry := register [] "app.models" (some "/p/app/models/__init__.py") true false
          isdir := fun _ => false }
        "app.nonexistent"))) := by
  refine ⟨rfl, rfl, rfl⟩

/-- C6 amended: for a queried name that is not registered (and whose first
dot-separated segment is non-empty), find_spec returns the None sentinel
if and only if no registered name begins with a proper dotted prefix of
the query followed by a dot (the prefixes being the joins of the first i
segments for 1 le i lt number of segments); otherwise it synthesizes a
namespace descriptor (spec with no loader) for the queried name. -/
theorem claim_C6_unregistered_resolution (f : PyAutoloadFinder) (name : String)
    (hnc : contains f.registry name = false)
    (hne : (py_split '.' name).headD "" ≠ "") :
    (find_spec f name = .ok none ↔
      ∀ i ∈ List.range' 1 ((py_split '.' name).length - 1),
        ∀ registered ∈ get_all_modules f.registry,
          py_startswith registered
            (py_join "." ((py_split '.' name).take i) ++ ".") = false) ∧
    (find_spec f name ≠ .ok none →
      find_spec f name = .ok (some (create_namespace_package_spec f name)) ∧
      (create_namespace_package_spec f name).loader = none ∧
      (create_namespace_package_spec f name).name = name) := by
  have hfs : find_spec f name = (match find_parent_module f.registry name with
      | some parent =>
          if parent = "" then Except.ok none
          else Except.ok (some (create_namespace_package_spec f name))
      | none => Except.ok none) := by
    unfold find_spec
    rw [hnc]
    simp
  constructor
  · constructor
    · intro hok
      rw [← find_parent_module_eq_none_iff]
      cases hfpm : find_parent_module f.registry name with
      | none => rfl
      | some p =>
          have hpne := find_parent_module_some_ne_empty f.registry name p hne hfpm
          rw [hfpm] at hfs
          simp only [if_neg hpne] at hfs
          rw [hfs] at hok
          exact absurd hok (by simp)
    · intro hforall
      have hfpm : find_parent_module f.registry name = none :=
        (find_parent_module_eq_none_iff f.registry name).mpr hforall
      rw [hfpm] at hfs
      exact hfs
  · intro hne2
    cases hfpm : find_parent_module f.registry name with
    | none =>
        rw [hfpm] at hfs
        exact absurd hfs hne2
    | some p =>
        have hpne := find_parent_module_some_ne_empty f.registry name p hne hfpm
        rw [hfpm] at hfs
        simp only [if_neg hpne] at hfs
        exact ⟨hfs, rfl, rfl⟩

/-- C6 witness: the amended theorem applied to the empty registry and the
query zzz. -/
theorem claim_C6_witness :
    (find_spec { base_paths := [], registry := [], isdir := fun _ => false } "zzz"
        = .ok none ↔
      ∀ i ∈ List.range' 1 ((py_split '.' "zzz").length - 1),
        ∀ registered ∈ get_all_modules
          (PyAutoloadFinder.mk [] [] (fun _ => false)).registry,
          py_startswith registered
            (py_join "." ((py_split '.' "zzz").take i) ++ ".") = false) ∧
    (find_spec { base_paths := [], registry := [], isdir := fun _ => false } "zzz"
        ≠ .ok none →
      find_spec { base_paths := [], registry := [], isdir := fun _ => false } "zzz"
        = .ok (some (create_namespace_package_spec
          { base_paths := [], registry := [], isdir := fun _ => false } "zzz")) ∧
      (create_namespace_package_spec
        { base_paths := [], registry := [], isdir := fun _ => false } "zzz").loader = none ∧
      (create_namespace_package_spec
        { base_paths := [], registry := [], isdir := fun _ => false } "zzz").name = "zzz") :=
  claim_C6_unregistered_resolution
    { base_paths := [], registry := [], isdir := fun _ => false } "zzz"
    (by decide) (by decide)

/-- C5 counterexample: the subdirectory a (no initializer, not ignored)
recursively contains the recognized source file leaf.py at depth three
(a/b/c/leaf.py), yet _is_valid_namespace_package — which only inspects the
listing and the direct children of its immediate subdirectories — returns
False, and the scan registers nothing for the whole subtree.  The claim's
"recursively contains, at any depth" direction fails. -/
theorem claim_C5_counterexample :
    (spec_recognized_in (.dir "a" [.dir "b" [.dir "c" [.file "leaf.py"]]]) "/r" [] = true) ∧
    (should_ignore "/r/a" [] = false) ∧
    ((([.dir "b" [.dir "c" [.file "leaf.py"]]] : List FSEntry)).any
      (fun c => c.name == "__init__.py") = false) ∧
    (is_valid_namespace_package "/r/a" [.dir "b" [.dir "c" [.file "leaf.py"]]] [] = false) ∧
    (scan_item (.dir "a" [.dir "b" [.dir "c" [.file "leaf.py"]]]) "/r" "app" [] [] = []) := by
  refine ⟨?_, by decide, by decide, by decide, ?_⟩
  · simp +decide [spec_recognized_in, spec_recognized_list]
  · simp +decide [scan_item, scan_items]

/-- C5 amended: a non-ignored subdirectory without an initializer is
registered as a namespace entry iff the two-level check of the code
succeeds: its listing directly contains a non-ignored entry whose name
ends in .py, or a non-ignored immediate subdirectory with a direct child
whose name ends in .py or equals the initializer name (ignore rules are
not applied at that inner level); when the check fails the subdirectory is
skipped entirely (the registry is returned unchanged, nothing below it is
visited).  Recognized files at depth three or more do not make the
directory a namespace entry. -/
theorem claim_C5_namespace_detection (dirPath ns : String) (patterns : List String)
    (reg : Registry) (iname : String) (children : List FSEntry)
    (hig : should_ignore (dirPath ++ "/" ++ iname) patterns = false)
    (hinit : children.any (fun c => c.name == "__init__.py") = false) :
    (is_valid_namespace_package (dirPath ++ "/" ++ iname) children patterns = true ↔
      ∃ item ∈ children,
        should_ignore (dirPath ++ "/" ++ iname ++ "/" ++ item.name) patterns = false ∧
        (py_endswith item.name ".py" = true ∨
          ∃ sub ∈ item.children,
            (py_endswith sub.name ".py" = true ∨ sub.name = "__init__.py"))) ∧
    (is_valid_namespace_package (dirPath ++ "/" ++ iname) children patterns = false →
      scan_item (.dir iname children) dirPath ns patterns reg = reg) ∧
    (is_valid_namespace_package (dirPath ++ "/" ++ iname) children patterns = true →
      dlookup (scan_item (.dir iname children) dirPath ns patterns reg) (ns ++ "." ++ iname)
        = some (freshEntry (some (dirPath ++ "/" ++ iname)) true true)) := by
  refine ⟨is_valid_namespace_package_iff _ children patterns, ?_, ?_⟩
  · intro hval
    unfold scan_item
    rw [show FSEntry.name (FSEntry.dir iname children) = iname from rfl]
    simp only [hig, Bool.false_eq_true, if_false]
    rw [if_neg (by simp [hinit])]
    rw [if_neg (by simp [hval])]
  · intro hval
    unfold scan_item
    rw [show FSEntry.name (FSEntry.dir iname children) = iname from rfl]
    simp only [hig, Bool.false_eq_true, if_false]
    rw [if_neg (by simp [hinit])]
    rw [if_pos hval]
    rw [scan_items_lookup_outside children _ _ patterns _ (ns ++ "." ++ iname)
      (fun s => ne_append_dot (ns ++ "." ++ iname) s)]
    rw [register]
    exact dlookup_dset_self reg (ns ++ "." ++ iname) _

/-- C5 witness: the amended theorem applied to the subdirectory m
containing the single source file x.py. -/
theorem claim_C5_witness :
    (is_valid_namespace_package ("/r" ++ "/" ++ "m") [FSEntry.file "x.py"] [] = true ↔
      ∃ item ∈ [FSEntry.file "x.py"],
        should_ignore ("/r" ++ "/" ++ "m" ++ "/" ++ item.name) [] = false ∧
        (py_endswith item.name ".py" = true ∨
          ∃ sub ∈ item.children,
            (py_endswith sub.name ".py" = true ∨ sub.name = "__init__.py"))) ∧
    (is_valid_namespace_package ("/r" ++ "/" ++ "m") [FSEntry.file "x.py"] [] = false →
      scan_item (.dir "m" [FSEntry.file "x.py"]) "/r" "app" [] [] = []) ∧
    (is_valid_namespace_package ("/r" ++ "/" ++ "m") [FSEntry.file "x.py"] [] = true →
      dlookup (scan_item (.dir "m" [FSEntry.file "x.py"]) "/r" "app" [] []) ("app" ++ "." ++ "m")
        = some (freshEntry (some ("/r" ++ "/" ++ "m")) true true)) :=
  claim_C5_namespace_detection "/r" "app" [] [] "m" [FSEntry.file "x.py"]
    (by decide) (by decide)

/-- C9 counterexample: in the reachable registry where b and c depend on
each other (so dependents(b) = [c] and dependents(c) = [b]), the traversal
from c terminates and returns [b, c]; c is a dependent of b yet appears
after b, so the claimed ordering — every dependent before the name it
depends on — fails for cyclic dependents relations. -/
theorem claim_C9_counterexample :
    (get_dependent_modules_in_order
      (apply_operation (apply_operation (apply_operation (apply_operation []
        (RegOp.register "b" (some "/b.py") false false))
        (RegOp.register "c" (some "/c.py") false false))
        (RegOp.add_dependency "b" "c"))
        (RegOp.add_dependency "c" "b")) "c" = .ok ["b", "c"]) ∧
    (get_dependents
      (apply_operation (apply_operation (apply_operation (apply_operation []
        (RegOp.register "b" (some "/b.py") false false))
        (RegOp.register "c" (some "/c.py") false false))
        (RegOp.add_dependency "b" "c"))
        (RegOp.add_dependency "c" "b")) "b" = .ok ["c"]) := by
  constructor
  · simp +decide [get_dependent_modules_in_order, visitE, visitListE, get_dependents,
      gdep, apply_operation, add_dependency, register, dset, dupdate, dlookup,
      addToSet, contains, freshEntry]
  · rfl

/-- C9 amended: for every registry whose dependents sets reference only
registered names and every registered start name, the post-order
dependents traversal terminates without raising and returns a list
containing the start name and each of its transitive dependents exactly
once; when the dependents relation is additionally acyclic, every
dependent appears before the name it depends on (for every listed name x,
each of its dependents precedes it in the list).  Cyclic states keep
termination and exactly-once exhaustiveness but can violate the ordering,
as the counterexample shows. -/
theorem claim_C9_postorder_dfs (r : Registry) (n : String)
    (hcl : DepClosed r) (hn : contains r n = true) :
    ∃ L, get_dependent_modules_in_order r n = .ok L ∧
      L.Nodup ∧
      (∀ m, m ∈ L ↔ ReachDep r n m) ∧
      (AcyclicDep r → ∀ o1 x o2, L = o1 ++ x :: o2 → ∀ d ∈ gdep r x, d ∈ o1) :=
  dfs_order_spec r n hcl hn

/-- C9 witness: the amended theorem applied to the registry where b
depends on a (dependents(a) = [b]), starting at a. -/
theorem claim_C9_witness :
    ∃ L, get_dependent_modules_in_order
      (apply_operation (apply_operation (apply_operation []
        (RegOp.register "a" (some "/a.py") false false))
        (RegOp.register "b" (some "/b.py") false false))
        (RegOp.add_dependency "b" "a")) "a" = .ok L ∧
      L.Nodup ∧
      (∀ m, m ∈ L ↔ ReachDep
        (apply_operation (apply_operation (apply_operation []
          (RegOp.register "a" (some "/a.py") false false))
          (RegOp.register "b" (some "/b.py") false false))
          (RegOp.add_dependency "b" "a")) "a" m) ∧
      (AcyclicDep
        (apply_operation (apply_operation (apply_operation []
          (RegOp.register "a" (some "/a.py") false false))
          (RegOp.register "b" (some "/b.py") false false))
          (RegOp.add_dependency "b" "a")) →
        ∀ o1 x o2, L = o1 ++ x :: o2 →
          ∀ d ∈ gdep
            (apply_operation (apply_operation (apply_operation []
              (RegOp.register "a" (some "/a.py") false false))
              (RegOp.register "b" (some "/b.py") false false))
              (RegOp.add_dependency "b" "a")) x, d ∈ o1) :=
  claim_C9_postorder_dfs
    (apply_operation (apply_operation (apply_operation []
      (RegOp.register "a" (some "/a.py") false false))
      (RegOp.register "b" (some "/b.py") false false))
      (RegOp.add_dependency "b" "a")) "a"
    (depClosedB_correct _ (by decide)) (by decide)

/-- C4: when a depends on b, b depends on c (so a is a dependent of b and
b a dependent of c), all three are registered and loaded and present in
the host module cache, reload_module(c) computes the post-order dependents
list containing a, b and c and, before the re-import loop runs, its unload
phase has marked loaded False for a, b and c and removed each from the
host module cache. -/
theorem claim_C4_transitive_unload (st : HostState) (a b c : String)
    (hcl : DepClosed st.registry)
    (hc : contains st.registry c = true)
    (hba : a ∈ gdep st.registry b) (hcb : b ∈ gdep st.registry c)
    (hla : is_loaded st.registry a = .ok true)
    (hlb : is_loaded st.registry b = .ok true)
    (hlc : is_loaded st.registry c = .ok true)
    (hsa : a ∈ st.sys_modules) (hsb : b ∈ st.sys_modules) (hsc : c ∈ st.sys_modules) :
    ∃ st2 order, reload_module_unload st c = .ok (st2, order) ∧
      a ∈ order ∧ b ∈ order ∧ c ∈ order ∧
      is_loaded st2.registry a = .ok false ∧
      is_loaded st2.registry b = .ok false ∧
      is_loaded st2.registry c = .ok false ∧
      a ∉ st2.sys_modules ∧ b ∉ st2.sys_modules ∧ c ∉ st2.sys_modules := by
  obtain ⟨L, hL, hnd, hmem, _⟩ := dfs_order_spec st.registry c hcl hc
  have hrc : ReachDep st.registry c c := ReachDep.refl c
  have hrb : ReachDep st.registry c b := ReachDep.step (ReachDep.refl c) hcb
  have hra : ReachDep st.registry c a := ReachDep.step hrb hba
  have haL : a ∈ L := (hmem a).mpr hra
  have hbL : b ∈ L := (hmem b).mpr hrb
  have hcL : c ∈ L := (hmem c).mpr hrc
  have hregL : ∀ m ∈ L.reverse, contains st.registry m = true := by
    intro m hm
    rw [List.mem_reverse] at hm
    exact reach_contains st.registry c m hcl hc ((hmem m).mp hm)
  obtain ⟨st2, hloop, hcont, hsys, hpres, hmain⟩ :=
    unload_loop_spec L.reverse st (List.nodup_reverse.mpr hnd) hregL
  have hrml : reload_module_unload st c = .ok (st2, L) := by
    unfold reload_module_unload
    rw [hc]
    rw [if_neg (by simp)]
    rw [hL]
    simp only [hloop]
  obtain ⟨hans, hal⟩ := hmain a (List.mem_reverse.mpr haL) hsa
  obtain ⟨hbns, hbl⟩ := hmain b (List.mem_reverse.mpr hbL) hsb
  obtain ⟨hcns, hcl2⟩ := hmain c (List.mem_reverse.mpr hcL) hsc
  exact ⟨st2, L, hrml, haL, hbL, hcL, hal, hbl, hcl2, hans, hbns, hcns⟩

/-- C4 witness: the theorem applied to the registry where a depends on b
and b depends on c, all loaded and present in the host cache. -/
theorem claim_C4_witness :
    ∃ st2 order, reload_module_unload
      (HostState.mk
        (List.foldl apply_operation []
          [RegOp.register "a" (some "/a.py") false false,
           RegOp.register "b" (some "/b.py") false false,
           RegOp.register "c" (some "/c.py") false false,
           RegOp.add_dependency "a" "b",
           RegOp.add_dependency "b" "c",
           RegOp.mark_loaded "a" 1,
           RegOp.mark_loaded "b" 1,
           RegOp.mark_loaded "c" 1])
        ["a", "b", "c"]) "c" = .ok (st2, order) ∧
      "a" ∈ order ∧ "b" ∈ order ∧ "c" ∈ order ∧
      is_loaded st2.registry "a" = .ok false ∧
      is_loaded st2.registry "b" = .ok false ∧
      is_loaded st2.registry "c" = .ok false ∧
      "a" ∉ st2.sys_modules ∧ "b" ∉ st2.sys_modules ∧ "c" ∉ st2.sys_modules :=
  claim_C4_transitive_unload
    (HostState.mk
      (List.foldl apply_operation []
        [RegOp.register "a" (some "/a.py") false false,
         RegOp.register "b" (some "/b.py") false false,
         RegOp.register "c" (some "/c.py") false false,
         RegOp.add_dependency "a" "b",
         RegOp.add_dependency "b" "c",
         RegOp.mark_loaded "a" 1,
         RegOp.mark_loaded "b" 1,
         RegOp.mark_loaded "c" 1])
      ["a", "b", "c"]) "a" "b" "c"
    (depClosedB_correct _ (by decide)) (by decide) (by decide) (by decide)
    (by rfl) (by rfl) (by rfl) (by decide) (by decide) (by decide)

/-- C2 counterexample: the sequence register a, register b,
add_dependency a b, register a — every step a listed public ModuleRegistry
operation — ends in a registry where a is recorded among the dependents of
b while b is not among the dependencies of a: the graph is not mirrored
after the final register. -/
theorem claim_C2_counterexample :
    ¬ Mirrored (apply_operation (apply_operation (apply_operation (apply_operation []
      (RegOp.register "a" (some "/a.py") false false))
      (RegOp.register "b" (some "/b.py") false false))
      (RegOp.add_dependency "a" "b"))
      (RegOp.register "a" (some "/a.py") false false)) := by
  intro hmr
  have ha : dlookup (apply_operation (apply_operation (apply_operation (apply_operation []
      (RegOp.register "a" (some "/a.py") false false))
      (RegOp.register "b" (some "/b.py") false false))
      (RegOp.add_dependency "a" "b"))
      (RegOp.register "a" (some "/a.py") false false)) "a"
      = some ⟨some "/a.py", false, false, false, none, [], []⟩ := by rfl
  have hb : dlookup (apply_operation (apply_operation (apply_operation (apply_operation []
      (RegOp.register "a" (some "/a.py") false false))
      (RegOp.register "b" (some "/b.py") false false))
      (RegOp.add_dependency "a" "b"))
      (RegOp.register "a" (some "/a.py") false false)) "b"
      = some ⟨some "/b.py", false, false, false, none, [], ["a"]⟩ := by rfl
  have hcontra := hmr "a" _ "b" _ ha hb
  simp at hcontra

/-- C2 amended: provided register is only applied to names not currently
registered, every public ModuleRegistry operation (register, unregister,
add_dependency, mark_loaded, mark_unloaded) preserves the combined
registry invariant: unique names, every edge endpoint registered, and the
dependency graph mirrored (d in deps(n) iff n in dependents(d) for all
registered n, d).  A duplicate register can break mirroring, as the
counterexample shows. -/
theorem claim_C2_ops_preserve_mirror (r : Registry) (op : RegOp)
    (h : WfRegistry r)
    (hre : ∀ n p pk ns, op = RegOp.register n p pk ns → contains r n = false) :
    WfRegistry (apply_operation r op) := by
  cases op with
  | register n p pk ns =>
      exact wf_register_fresh r n p pk ns h (hre n p pk ns rfl)
  | unregister n => exact wf_unregister r n h
  | add_dependency n d =>
      show WfRegistry (match add_dependency r n d with
        | .ok r2 => r2
        | .error _ => r)
      cases hok : add_dependency r n d with
      | ok r2 => exact wf_add_dependency r r2 n d h hok
      | error msg => exact h
  | mark_loaded n t =>
      show WfRegistry (match mark_loaded r n t with
        | .ok r2 => r2
        | .error _ => r)
      cases hok : mark_loaded r n t with
      | ok r2 => exact wf_mark_loaded r r2 n t h hok
      | error msg => exact h
  | mark_unloaded n =>
      show WfRegistry (match mark_unloaded r n with
        | .ok r2 => r2
        | .error _ => r)
      cases hok : mark_unloaded r n with
      | ok r2 => exact wf_mark_unloaded r r2 n h hok
      | error msg => exact h

/-- C2 witness: the amended theorem applied to the empty registry and a
register operation on a fresh name. -/
theorem claim_C2_witness :
    WfRegistry (apply_operation [] (RegOp.register "a" (some "/a.py") false false)) :=
  claim_C2_ops_preserve_mirror [] (RegOp.register "a" (some "/a.py") false false)
    (wfB_correct [] (by decide))
    (by
      intro n p pk ns hh
      cases hh
      decide)

end PyAutoload
